import Mathlib

/-
Verification of the template inheritance and rendering engine implemented in
src/preview-theme-enhanced.py (function render_template and its helpers).

The engine is a pipeline of regex-driven text substitutions over the raw
template text:
  1. extends resolution: re.search for an extends directive, block extraction
     from the child (re.finditer with DOTALL, non-greedy bodies), and block
     substitution into the base (re.sub with the same pattern);
  2. include resolution (re.sub);
  3. variable substitution (str.replace per context key, spaced and unspaced
     placeholder forms, in iteration order of the mapping);
  4. default-filter collapse (re.sub);
  5. tag stripping (two re.sub passes without DOTALL).

Texts are modelled as List Char.  Every regex used by the source is
deterministic at a fixed start position (its character classes are disjoint
from the literal characters that follow them), so each pattern is embedded as
a total recursive matcher that returns the captured payload and the rest of
the input after the match.  Python re.sub / re.finditer scan left to right:
at each position they try the pattern; on success they emit the replacement
and resume after the match, on failure they keep one character and advance.
That scan is embedded once, as a fuel-indexed structural recursion (the fuel
is the input length; a successful match always consumes at least one
character, which scanStep records, so the fuel never runs out).

Python's re module treats the \w and \s classes as Unicode-aware; the texts
this engine is applied to are ASCII, and the model uses the ASCII meaning.
-/

/-! ## Character classes -/

/-- The regex class \s (ASCII part): space, tab, newline, CR, VT, FF. -/
def isSpace (c : Char) : Bool :=
  c == ' ' || c == '\t' || c == '\n' || c == '\r' || c == '\u000B' || c == '\u000C'

/-- The regex class \w (ASCII part): letters, digits, underscore. -/
def isWordC (c : Char) : Bool :=
  c.isAlphanum || c == '_'

/-- Negated class used by the quoted-capture groups: any character except a
double quote. -/
def notQuote (c : Char) : Bool :=
  !(c == '"')

/-! ## Parsing helpers -/

/-- Consume the longest run matched by a greedy \s* . -/
def dropSpaces (s : List Char) : List Char :=
  s.dropWhile isSpace

/-- Consume a literal piece of the pattern. -/
def expect (lit s : List Char) : Option (List Char) :=
  if lit.isPrefixOf s then some (s.drop lit.length) else none

/-! ## Generic left-to-right scan (re.sub / re.finditer / str.replace) -/

/-- A successful match must consume at least one character; scanStep records
this invariant of every pattern used by the engine. -/
def scanStep {α : Type} (m : List Char → Option (α × List Char)) (s : List Char) :
    Option (α × List Char) :=
  match m s with
  | some (a, r) => if r.length < s.length then some (a, r) else none
  | none => none

/-- Fuel-indexed left-to-right substitution scan: at each position try the
matcher; on a match emit its payload image and resume after the match,
otherwise keep the character and advance.  The fuel is only a termination
device: with fuel at least the input length the scan never exhausts it. -/
def reSubFuel {α : Type} (m : List Char → Option (α × List Char))
    (emit : α → List Char) : Nat → List Char → List Char
  | 0, s => s
  | _ + 1, [] => []
  | n + 1, c :: t =>
    match scanStep m (c :: t) with
    | some (a, r) => emit a ++ reSubFuel m emit n r
    | none => c :: reSubFuel m emit n t

/-- re.sub with a function replacement (also str.replace, with a constant
matcher payload). -/
def reSubP {α : Type} (m : List Char → Option (α × List Char))
    (emit : α → List Char) (s : List Char) : List Char :=
  reSubFuel m emit s.length s

/-- Fuel-indexed left-to-right match collection. -/
def reFindFuel {α : Type} (m : List Char → Option (α × List Char)) :
    Nat → List Char → List α
  | 0, _ => []
  | _ + 1, [] => []
  | n + 1, c :: t =>
    match scanStep m (c :: t) with
    | some (a, r) => a :: reFindFuel m n r
    | none => reFindFuel m n t

/-- re.finditer: the list of match payloads, leftmost first,
non-overlapping. -/
def reFind {α : Type} (m : List Char → Option (α × List Char)) (s : List Char) :
    List α :=
  reFindFuel m s.length s

/-! ## Pattern literals -/

/-- Literal keyword of the extends directive. -/
def kwExtends : List Char := ['e', 'x', 't', 'e', 'n', 'd', 's']

/-- Literal keyword of the include directive. -/
def kwInclude : List Char := ['i', 'n', 'c', 'l', 'u', 'd', 'e']

/-- Literal keyword of the block-open directive. -/
def kwBlock : List Char := ['b', 'l', 'o', 'c', 'k']

/-- Literal keyword of the block-close directive. -/
def kwEndblock : List Char := ['e', 'n', 'd', 'b', 'l', 'o', 'c', 'k']

/-- Literal middle piece of the default filter, default(value=" . -/
def kwDefaultVal : List Char :=
  ['d', 'e', 'f', 'a', 'u', 'l', 't', '(', 'v', 'a', 'l', 'u', 'e', '=', '"']

/-! ## Matchers, one per regex of the source -/

/-- Matcher for the extends pattern (group 1 is the quoted path):
open brace-percent, \s*, extends, \s*, quote, [^"]+ , quote, \s*,
percent-close.  Returns the captured path and the rest after the match. -/
def mExtends (s : List Char) : Option (List Char × List Char) :=
  match s with
  | '{' :: '%' :: r =>
    match expect kwExtends (dropSpaces r) with
    | none => none
    | some r₂ =>
      match dropSpaces r₂ with
      | '"' :: r₃ =>
        let p := r₃.takeWhile notQuote
        if p.isEmpty then none
        else
          match r₃.dropWhile notQuote with
          | '"' :: r₄ =>
            match dropSpaces r₄ with
            | '%' :: '}' :: rest => some (p, rest)
            | _ => none
          | _ => none
      | _ => none
  | _ => none

/-- Matcher for the include pattern, identical in shape to the extends
pattern but with the include keyword. -/
def mInclude (s : List Char) : Option (List Char × List Char) :=
  match s with
  | '{' :: '%' :: r =>
    match expect kwInclude (dropSpaces r) with
    | none => none
    | some r₂ =>
      match dropSpaces r₂ with
      | '"' :: r₃ =>
        let p := r₃.takeWhile notQuote
        if p.isEmpty then none
        else
          match r₃.dropWhile notQuote with
          | '"' :: r₄ =>
            match dropSpaces r₄ with
            | '%' :: '}' :: rest => some (p, rest)
            | _ => none
          | _ => none
      | _ => none
  | _ => none

/-- Matcher for the block-open half of block_pattern: open brace-percent,
\s*, block, \s+, (\w+), \s*, percent-close.  Returns the block name. -/
def mBlockOpen (s : List Char) : Option (List Char × List Char) :=
  match s with
  | '{' :: '%' :: r =>
    match expect kwBlock (dropSpaces r) with
    | none => none
    | some r₂ =>
      match r₂ with
      | c :: r₃ =>
        if isSpace c then
          let r₄ := dropSpaces r₃
          let w := r₄.takeWhile isWordC
          if w.isEmpty then none
          else
            match dropSpaces (r₄.dropWhile isWordC) with
            | '%' :: '}' :: rest => some (w, rest)
            | _ => none
        else none
      | [] => none
  | _ => none

/-- Matcher for the block-close half of block_pattern: open brace-percent,
\s*, endblock, \s*, percent-close.  The source pattern does not allow a name
after endblock. -/
def mBlockClose (s : List Char) : Option (List Char) :=
  match s with
  | '{' :: '%' :: r =>
    match expect kwEndblock (dropSpaces r) with
    | none => none
    | some r₂ =>
      match dropSpaces r₂ with
      | '%' :: '}' :: rest => some rest
      | _ => none
  | _ => none

/-- The non-greedy DOTALL body (.*?) of block_pattern: take the shortest
body such that the block-close matches immediately after it.  Newlines are
allowed in the body (re.DOTALL). -/
def scanBlockClose : List Char → Option (List Char × List Char)
  | [] => none
  | c :: t =>
    match mBlockClose (c :: t) with
    | some rest => some ([], rest)
    | none => (scanBlockClose t).map (fun p => (c :: p.1, p.2))

/-- Matcher for the whole block_pattern as compiled with re.DOTALL: the
open half, then the shortest body closed by a bare endblock directive.
Payload is (name, body).  This is the matcher of the extraction pass
(re.finditer at line 48 passes re.DOTALL). -/
def mBlock (s : List Char) : Option ((List Char × List Char) × List Char) :=
  match mBlockOpen s with
  | none => none
  | some (name, afterOpen) =>
    match scanBlockClose afterOpen with
    | none => none
    | some (body, rest) => some ((name, body), rest)

/-- The non-greedy body (.*?) of block_pattern as compiled WITHOUT
re.DOTALL: the substitution re.sub at line 58 passes no flags, so there the
dot does not match a newline and the body scan dies at one.  Only the dot
is affected: the \s runs inside the open and close directives still cross
newlines in both passes. -/
def scanBlockCloseNL : List Char → Option (List Char × List Char)
  | [] => none
  | c :: t =>
    match mBlockClose (c :: t) with
    | some rest => some ([], rest)
    | none =>
      if c = '\n' then none
      else (scanBlockCloseNL t).map (fun p => (c :: p.1, p.2))

/-- Matcher for block_pattern as compiled without re.DOTALL, used by the
substitution into the base: a block region whose body spans a newline is
not matched here, although the extraction pass (mBlock) does match it. -/
def mBlockSub (s : List Char) : Option ((List Char × List Char) × List Char) :=
  match mBlockOpen s with
  | none => none
  | some (name, afterOpen) =>
    match scanBlockCloseNL afterOpen with
    | none => none
    | some (body, rest) => some ((name, body), rest)

/-- Matcher for the default-filter pattern: open double brace, \s*, \w+,
\s*, pipe, \s*, the default(value=" literal, ([^"]+), quote, close paren,
\s*, close double brace.  Payload is the captured literal. -/
def mDefault (s : List Char) : Option (List Char × List Char) :=
  match s with
  | '{' :: '{' :: r =>
    let r₂ := dropSpaces r
    let w := r₂.takeWhile isWordC
    if w.isEmpty then none
    else
      match dropSpaces (r₂.dropWhile isWordC) with
      | '|' :: r₃ =>
        match expect kwDefaultVal (dropSpaces r₃) with
        | none => none
        | some r₄ =>
          let lit := r₄.takeWhile notQuote
          if lit.isEmpty then none
          else
            match r₄.dropWhile notQuote with
            | '"' :: ')' :: r₅ =>
              match dropSpaces r₅ with
              | '}' :: '}' :: rest => some (lit, rest)
              | _ => none
            | _ => none
      | _ => none
  | _ => none

/-- Scan for the % and closing brace of the stripper directive pattern
without DOTALL: the dot does not match a newline, so a newline before the
closing delimiter kills the match. -/
def findDirClose : List Char → Option (List Char)
  | '%' :: '}' :: r => some r
  | '\n' :: _ => none
  | _ :: r => findDirClose r
  | [] => none

/-- Matcher for the final stripper pass over directives (open brace-percent,
non-greedy dots, percent-close, no DOTALL).  The payload is the empty
replacement. -/
def mDirStrip (s : List Char) : Option (List Char × List Char) :=
  match s with
  | '{' :: '%' :: r => (findDirClose r).map (fun rest => ([], rest))
  | _ => none

/-- Scan for the closing double brace of the stripper placeholder pattern
without DOTALL. -/
def findVarClose : List Char → Option (List Char)
  | '}' :: '}' :: r => some r
  | '\n' :: _ => none
  | _ :: r => findVarClose r
  | [] => none

/-- Matcher for the final stripper pass over placeholders (open double
brace, non-greedy dots, close double brace, no DOTALL). -/
def mVarStrip (s : List Char) : Option (List Char × List Char) :=
  match s with
  | '{' :: '{' :: r => (findVarClose r).map (fun rest => ([], rest))
  | _ => none

/-- Matcher of str.replace: an occurrence of the literal pattern at the
current position. -/
def mLit (pat rep : List Char) (s : List Char) : Option (List Char × List Char) :=
  if pat.isPrefixOf s then some (rep, s.drop pat.length) else none

/-! ## The pipeline stages of render_template -/

/-- The template source provider: fetch(path) gives the raw text, or absence.
In the source this is the filesystem (path.exists / read_text). -/
def Provider : Type := List Char → Option (List Char)

/-- Block extraction from the child template (the re.finditer loop): the
list of (name, body) matches of block_pattern, leftmost first. -/
def extract_blocks (content : List Char) : List (List Char × List Char) :=
  reFind mBlock content

/-- Lookup in the Block Map built by the dict-assignment loop: a later match
for the same name overwrites an earlier one, so the last binding wins. -/
def lookupLast (bm : List (List Char × List Char)) (n : List Char) :
    Option (List Char) :=
  match bm with
  | [] => none
  | (k, v) :: rest =>
    match lookupLast rest n with
    | some r => some r
    | none => if k = n then some v else none

/-- The replace_block callback of the source: the child's entry for the
block name if present, the empty string otherwise.  The base's own matched
body (payload component 2) is never used. -/
def replace_block (blocks : List (List Char × List Char))
    (p : List Char × List Char) : List Char :=
  match lookupLast blocks p.1 with
  | some b => b
  | none => []

/-- Substitution of the child's blocks into the base text: re.sub of
block_pattern with replace_block.  This call (line 58) passes no flags, so
unlike the extraction pass it uses the matcher without re.DOTALL: a base
block region whose body spans a newline is not matched and survives
verbatim, authored body and directives included. -/
def sub_blocks (blocks : List (List Char × List Char)) (base : List Char) :
    List Char :=
  reSubP mBlockSub (replace_block blocks) base

/-- re.search for the extends directive: the leftmost match, if any. -/
def findExtends (content : List Char) : Option (List Char) :=
  (reFind mExtends content).head?

/-- The extends-handling step of render_template: if the child declares
extends and the base is available, substitute the child's blocks into the
base; otherwise keep the child text unchanged. -/
def handle_extends (fetch : Provider) (content : List Char) : List Char :=
  match findExtends content with
  | none => content
  | some basePath =>
    match fetch basePath with
    | none => content
    | some baseContent => sub_blocks (extract_blocks content) baseContent

/-- The replace_include callback: the included file's raw text, or the
inline diagnostic comment when the path cannot be fetched. -/
def replace_include (fetch : Provider) (p : List Char) : List Char :=
  match fetch p with
  | some txt => txt
  | none => "<!-- Include not found: ".data ++ p ++ " -->".data

/-- Include resolution (re.sub of the include pattern). -/
def sub_includes (fetch : Provider) (content : List Char) : List Char :=
  reSubP mInclude (replace_include fetch) content

/-- Python str.replace: replace every non-overlapping occurrence of pat,
left to right; an occurrence inserted by the replacement itself is not
rescanned in the same call.  The source never calls it with an empty
pattern (the placeholder forms contain the braces). -/
def pyReplace (pat rep s : List Char) : List Char :=
  reSubP (mLit pat rep) id s

/-- The spaced placeholder form built by the source for a context key. -/
def spacedVar (k : List Char) : List Char :=
  ['{', '{', ' '] ++ k ++ [' ', '}', '}']

/-- The unspaced placeholder form built by the source for a context key. -/
def unspacedVar (k : List Char) : List Char :=
  ['{', '{'] ++ k ++ ['}', '}']

/-- Variable substitution: for every (key, value) pair in iteration order,
replace the spaced form and then the unspaced form everywhere in the text.
In the source the mapping iterated is the module-level SITE_DATA dict (the
context parameter of render_template is never read); the ctx argument here
plays that role, as an association list in iteration order. -/
def replace_vars (ctx : List (List Char × List Char)) (s : List Char) :
    List Char :=
  ctx.foldl
    (fun acc kv => pyReplace (unspacedVar kv.1) kv.2 (pyReplace (spacedVar kv.1) kv.2 acc))
    s

/-- Default-filter collapse: every match of the default pattern is replaced
by its captured literal (the replace_default callback returns group 1). -/
def replace_defaults (s : List Char) : List Char :=
  reSubP mDefault id s

/-- First stripper pass: remove the single-line directive spans. -/
def strip_directives (s : List Char) : List Char :=
  reSubP mDirStrip id s

/-- Second stripper pass: remove the single-line placeholder spans. -/
def strip_variables (s : List Char) : List Char :=
  reSubP mVarStrip id s

/-- The Tag Stripper: both final re.sub passes of render_template. -/
def tag_strip (s : List Char) : List Char :=
  strip_variables (strip_directives s)

/-- The pipeline applied after the extends step: includes, variables,
defaults, stripping.  This is exactly what render_template does to a child
text whose extends directive is absent or ignored. -/
def render_rest (fetch : Provider) (ctx : List (List Char × List Char))
    (content : List Char) : List Char :=
  tag_strip (replace_defaults (replace_vars ctx (sub_includes fetch content)))

/-- The render entry point render_template(template_path, context): absent
exactly when the top-level template cannot be fetched, otherwise the fully
processed text. -/
def render_template (fetch : Provider) (path : List Char)
    (ctx : List (List Char × List Char)) : Option (List Char) :=
  match fetch path with
  | none => none
  | some content => some (render_rest fetch ctx (handle_extends fetch content))

/-- The module-level mock context of the source (SITE_DATA), in its
insertion order, which is the dict iteration order. -/
def SITE_DATA : List (List Char × List Char) :=
  [("site.name".data, "RustPress".data),
   ("site.tagline".data, "Modern CMS Built with Rust".data),
   ("site.year".data, "2026".data),
   ("site.stripe_public_key".data, "pk_test_demo".data)]

/-! ## Observation predicates -/

/-- Substring occurrence (Python's in operator on strings). -/
def containsSub (pat : List Char) : List Char → Bool
  | [] => pat.isPrefixOf []
  | c :: t => pat.isPrefixOf (c :: t) || containsSub pat t

/-- Some suffix position of the text matches the given pattern matcher. -/
def existsMatchB {α : Type} (m : List Char → Option α) : List Char → Bool
  | [] => (m []).isSome
  | c :: t => (m (c :: t)).isSome || existsMatchB m t

/-- The text contains block-open or block-close directive syntax (a match of
either half of block_pattern at some position). -/
def containsBlockTag (s : List Char) : Bool :=
  existsMatchB mBlockOpen s || existsMatchB mBlockClose s

/-- The directive delimiter pair: an occurrence of the opening delimiter and
an occurrence of the closing delimiter. -/
def hasDirPair (s : List Char) : Bool :=
  containsSub ['{', '%'] s && containsSub ['%', '}'] s

/-- The placeholder delimiter pair. -/
def hasVarPair (s : List Char) : Bool :=
  containsSub ['{', '{'] s && containsSub ['}', '}'] s

/-! ## Structured template texts -/

/-- The canonical block-open directive text for a name. -/
def blkOpenTxt (n : List Char) : List Char :=
  ['{', '%', ' '] ++ kwBlock ++ [' '] ++ n ++ [' ', '%', '}']

/-- The canonical bare block-close directive text. -/
def blkCloseTxt : List Char :=
  ['{', '%', ' '] ++ kwEndblock ++ [' ', '%', '}']

/-- A block-close directive that repeats the block name. -/
def blkCloseNamedTxt (n : List Char) : List Char :=
  ['{', '%', ' '] ++ kwEndblock ++ [' '] ++ n ++ [' ', '%', '}']

/-- A declared block region with a bare close. -/
def blkTxt (n b : List Char) : List Char :=
  blkOpenTxt n ++ b ++ blkCloseTxt

/-- A declared block region whose close repeats the name. -/
def blkNamedTxt (n b : List Char) : List Char :=
  blkOpenTxt n ++ b ++ blkCloseNamedTxt n

/-- The canonical extends directive text for a base path. -/
def extendsTxt (p : List Char) : List Char :=
  ['{', '%', ' '] ++ kwExtends ++ [' ', '"'] ++ p ++ ['"', ' ', '%', '}']

/-- The canonical default-filter placeholder for an identifier and a quoted
literal. -/
def dfltTxt (idn lit : List Char) : List Char :=
  ['{', '{', ' '] ++ idn ++ [' ', '|', ' '] ++ kwDefaultVal ++ lit ++ ['"', ')', ' ', '}', '}']

/-- A base template as the interleaving of literal segments and block
regions. -/
inductive TPart : Type
  | lit : List Char → TPart
  | blk : List Char → List Char → TPart

/-- The text of one base part. -/
def TPart.text : TPart → List Char
  | .lit s => s
  | .blk n b => blkTxt n b

/-- The text of a structured base. -/
def flattenT (ps : List TPart) : List Char :=
  ps.foldr (fun p acc => p.text ++ acc) []

/-- The resolver's image of one base part under a given Block Map: literal
segments survive, every block region is replaced by the map entry for its
name (or nothing), and the region's own authored body is discarded. -/
def TPart.render (bm : List (List Char × List Char)) : TPart → List Char
  | .lit s => s
  | .blk n _ => replace_block bm (n, [])

/-- The resolver's image of a structured base. -/
def renderT (bm : List (List Char × List Char)) (ps : List TPart) : List Char :=
  ps.foldr (fun p acc => p.render bm ++ acc) []

/-- Well-formedness of a structured base: literal segments contain no open
brace, block names are nonempty words, block bodies contain no open brace. -/
def TPart.Ok : TPart → Prop
  | .lit s => '{' ∉ s
  | .blk n b => n ≠ [] ∧ (∀ c ∈ n, isWordC c = true) ∧ '{' ∉ b

/-- Well-formedness of a structured base for the substitution pass, which
runs without re.DOTALL: additionally every block body must be free of
newlines, otherwise its region is not matched and survives.  Literal
segments may still contain newlines. -/
def TPart.OkSub : TPart → Prop
  | .lit s => '{' ∉ s
  | .blk n b => n ≠ [] ∧ (∀ c ∈ n, isWordC c = true) ∧ '{' ∉ b ∧ '\n' ∉ b

/-- A text for the Tag Stripper as an interleaving of literal segments,
directive spans and placeholder spans. -/
inductive SPart : Type
  | lit : List Char → SPart
  | dir : List Char → SPart
  | var : List Char → SPart

/-- The text of one stripper part. -/
def SPart.text : SPart → List Char
  | .lit s => s
  | .dir b => ['{', '%'] ++ b ++ ['%', '}']
  | .var b => ['{', '{'] ++ b ++ ['}', '}']

/-- The text of a structured stripper input. -/
def flattenS (ps : List SPart) : List Char :=
  ps.foldr (fun p acc => p.text ++ acc) []

/-- A span body is inert when it contains none of the delimiter characters
and no newline. -/
def bodyOk (b : List Char) : Prop :=
  '{' ∉ b ∧ '}' ∉ b ∧ '%' ∉ b ∧ '\n' ∉ b

/-- Well-formedness of a structured stripper input. -/
def SPart.Ok : SPart → Prop
  | .lit s => '{' ∉ s
  | .dir b => bodyOk b
  | .var b => bodyOk b

/-- Selector for directive spans. -/
def SPart.isDir : SPart → Bool
  | .dir _ => true
  | _ => false

/-- Selector for literal segments. -/
def SPart.isLit : SPart → Bool
  | .lit _ => true
  | _ => false

/-- The Block Map entries contributed by a structured child text, in match
order. -/
def blocksT (ps : List TPart) : List (List Char × List Char) :=
  ps.foldr
    (fun p acc =>
      match p with
      | .lit _ => acc
      | .blk n b => (n, b) :: acc)
    []

instance (b : List Char) : Decidable (bodyOk b) :=
  inferInstanceAs (Decidable ('{' ∉ b ∧ '}' ∉ b ∧ '%' ∉ b ∧ '\n' ∉ b))

instance (p : TPart) : Decidable p.Ok :=
  match p with
  | .lit s => inferInstanceAs (Decidable ('{' ∉ s))
  | .blk n b => inferInstanceAs (Decidable (n ≠ [] ∧ (∀ c ∈ n, isWordC c = true) ∧ '{' ∉ b))

instance (p : TPart) : Decidable p.OkSub :=
  match p with
  | .lit s => inferInstanceAs (Decidable ('{' ∉ s))
  | .blk n b => inferInstanceAs
      (Decidable (n ≠ [] ∧ (∀ c ∈ n, isWordC c = true) ∧ '{' ∉ b ∧ '\n' ∉ b))

instance (p : SPart) : Decidable p.Ok :=
  match p with
  | .lit s => inferInstanceAs (Decidable ('{' ∉ s))
  | .dir b => inferInstanceAs (Decidable (bodyOk b))
  | .var b => inferInstanceAs (Decidable (bodyOk b))

/-! ## Concrete artifacts for the witnesses and counterexamples -/

/-- The child of the end-to-end inheritance scenario. -/
def childC1w : List Char := extendsTxt ("base".data) ++ blkTxt ("title".data) ("Hello".data)

/-- The base of the end-to-end inheritance scenario, as structured parts. -/
def baseC1parts : List TPart :=
  [TPart.lit ("<h1>".data), TPart.blk ("title".data) ("Default".data),
   TPart.lit ("</h1><p>".data), TPart.blk ("body".data) [], TPart.lit ("</p>".data)]

/-- Provider of the end-to-end inheritance scenario. -/
def fetchC1w : Provider := fun p =>
  if p = "child".data then some childC1w
  else if p = "base".data then some (flattenT baseC1parts) else none

/-- A child that only declares extends. -/
def childC2w : List Char := extendsTxt ("base".data)

/-- A base with a stray block-close and an unclosed block-open. -/
def baseC2w : List Char := blkCloseTxt ++ (blkOpenTxt ("a".data) ++ "x".data)

/-- Provider pairing the stray-directive base with the extending child. -/
def fetchC2w : Provider := fun p =>
  if p = "child".data then some childC2w
  else if p = "base".data then some baseC2w else none

/-- A template whose overlapping delimiter fragments defeat the stripper. -/
def tmplC3 : List Char := ['{', '%', '%', '{', '{', 'a', '}', '}', '}']

/-- Provider serving that template at the top level. -/
def fetchC3w : Provider := fun p => if p = "t".data then some tmplC3 else none

/-- The same overlapping-fragment text, as a Tag Stripper input. -/
def tmplC8 : List Char := ['{', '%', '%', '{', '{', 'a', '}', '}', '}']

/-- A child extending a base that the provider does not have. -/
def childC9w : List Char := extendsTxt ("base".data) ++ "Hello".data

/-- Provider with the child but without its base. -/
def fetchC9w : Provider := fun p => if p = "child".data then some childC9w else none

/-- A child overriding block t with a single-line body. -/
def childC1ml : List Char := extendsTxt ("base".data) ++ blkTxt ("t".data) ("X".data)

/-- A base whose block t authors a body that spans two lines. -/
def baseC1ml : List Char :=
  "<b>".data ++ (blkTxt ("t".data) ("L1\nL2".data) ++ "</b>".data)

/-- Provider pairing the multi-line-bodied base with that child. -/
def fetchC1ml : Provider := fun p =>
  if p = "child".data then some childC1ml
  else if p = "base".data then some baseC1ml else none

/-! ## Generic facts about the scan combinators -/

theorem reSubFuel_nil {α : Type} (m : List Char → Option (α × List Char))
    (emit : α → List Char) (n : Nat) : reSubFuel m emit n [] = [] := by
  cases n <;> rfl

theorem reFindFuel_nil {α : Type} (m : List Char → Option (α × List Char))
    (n : Nat) : reFindFuel m n [] = [] := by
  cases n <;> rfl

theorem scanStep_length {α : Type} {m : List Char → Option (α × List Char)}
    {s : List Char} {a : α} {r : List Char}
    (h : scanStep m s = some (a, r)) : r.length < s.length := by
  unfold scanStep at h
  split at h
  · split at h
    · cases h
      assumption
    · cases h
  · cases h

theorem scanStep_none {α : Type} {m : List Char → Option (α × List Char)}
    {s : List Char} (h : m s = none) : scanStep m s = none := by
  unfold scanStep
  rw [h]

theorem scanStep_some {α : Type} {m : List Char → Option (α × List Char)}
    {s : List Char} {a : α} {r : List Char} (h : m s = some (a, r))
    (hr : r.length < s.length) : scanStep m s = some (a, r) := by
  unfold scanStep
  rw [h]
  simp [hr]

theorem reSubFuel_congr {α : Type} (m : List Char → Option (α × List Char))
    (emit : α → List Char) :
    ∀ n₁ n₂ s, s.length ≤ n₁ → s.length ≤ n₂ →
      reSubFuel m emit n₁ s = reSubFuel m emit n₂ s := by
  intro n₁
  induction n₁ with
  | zero =>
    intro n₂ s h₁ _
    have hs : s = [] := List.length_eq_zero.mp (Nat.le_zero.mp h₁)
    subst hs
    rw [reSubFuel_nil, reSubFuel_nil]
  | succ n ih =>
    intro n₂ s h₁ h₂
    cases s with
    | nil => rw [reSubFuel_nil, reSubFuel_nil]
    | cons c t =>
      cases n₂ with
      | zero => simp at h₂
      | succ n₂ =>
        show reSubFuel m emit (n + 1) (c :: t) = reSubFuel m emit (n₂ + 1) (c :: t)
        unfold reSubFuel
        cases hs : scanStep m (c :: t) with
        | none =>
          simp only []
          have := ih n₂ t (by simp at h₁; omega) (by simp at h₂; omega)
          rw [this]
        | some p =>
          obtain ⟨a, r⟩ := p
          have hr := scanStep_length hs
          simp only []
          have := ih n₂ r (by simp at h₁ hr; omega) (by simp at h₂ hr; omega)
          rw [this]

theorem reFindFuel_congr {α : Type} (m : List Char → Option (α × List Char)) :
    ∀ n₁ n₂ s, s.length ≤ n₁ → s.length ≤ n₂ →
      reFindFuel m n₁ s = reFindFuel m n₂ s := by
  intro n₁
  induction n₁ with
  | zero =>
    intro n₂ s h₁ _
    have hs : s = [] := List.length_eq_zero.mp (Nat.le_zero.mp h₁)
    subst hs
    rw [reFindFuel_nil, reFindFuel_nil]
  | succ n ih =>
    intro n₂ s h₁ h₂
    cases s with
    | nil => rw [reFindFuel_nil, reFindFuel_nil]
    | cons c t =>
      cases n₂ with
      | zero => simp at h₂
      | succ n₂ =>
        show reFindFuel m (n + 1) (c :: t) = reFindFuel m (n₂ + 1) (c :: t)
        unfold reFindFuel
        cases hs : scanStep m (c :: t) with
        | none =>
          simp only []
          exact ih n₂ t (by simp at h₁; omega) (by simp at h₂; omega)
        | some p =>
          obtain ⟨a, r⟩ := p
          have hr := scanStep_length hs
          simp only []
          have := ih n₂ r (by simp at h₁ hr; omega) (by simp at h₂ hr; omega)
          rw [this]

theorem reSubP_nil {α : Type} (m : List Char → Option (α × List Char))
    (emit : α → List Char) : reSubP m emit [] = [] := rfl

theorem reFind_nil {α : Type} (m : List Char → Option (α × List Char)) :
    reFind m [] = [] := rfl

theorem reSubP_cons_of_none {α : Type} {m : List Char → Option (α × List Char)}
    (emit : α → List Char) {c : Char} {t : List Char} (h : m (c :: t) = none) :
    reSubP m emit (c :: t) = c :: reSubP m emit t := by
  have e : reSubP m emit (c :: t) =
      match scanStep m (c :: t) with
      | some (a, r) => emit a ++ reSubFuel m emit t.length r
      | none => c :: reSubFuel m emit t.length t := rfl
  rw [e, scanStep_none h]
  rfl

theorem reFind_cons_of_none {α : Type} {m : List Char → Option (α × List Char)}
    {c : Char} {t : List Char} (h : m (c :: t) = none) :
    reFind m (c :: t) = reFind m t := by
  have e : reFind m (c :: t) =
      match scanStep m (c :: t) with
      | some (a, r) => a :: reFindFuel m t.length r
      | none => reFindFuel m t.length t := rfl
  rw [e, scanStep_none h]
  rfl

theorem reSubP_cons_of_match {α : Type} {m : List Char → Option (α × List Char)}
    (emit : α → List Char) {c : Char} {t : List Char} {a : α} {r : List Char}
    (h : m (c :: t) = some (a, r)) (hr : r.length ≤ t.length) :
    reSubP m emit (c :: t) = emit a ++ reSubP m emit r := by
  have e : reSubP m emit (c :: t) =
      match scanStep m (c :: t) with
      | some (a, r) => emit a ++ reSubFuel m emit t.length r
      | none => c :: reSubFuel m emit t.length t := rfl
  rw [e, scanStep_some h (by simp; omega)]
  show emit a ++ reSubFuel m emit t.length r = emit a ++ reSubP m emit r
  rw [reSubFuel_congr m emit t.length r.length r hr (Nat.le_refl _)]
  rfl

theorem reFind_cons_of_match {α : Type} {m : List Char → Option (α × List Char)}
    {c : Char} {t : List Char} {a : α} {r : List Char}
    (h : m (c :: t) = some (a, r)) (hr : r.length ≤ t.length) :
    reFind m (c :: t) = a :: reFind m r := by
  have e : reFind m (c :: t) =
      match scanStep m (c :: t) with
      | some (a, r) => a :: reFindFuel m t.length r
      | none => reFindFuel m t.length t := rfl
  rw [e, scanStep_some h (by simp; omega)]
  show a :: reFindFuel m t.length r = a :: reFind m r
  rw [reFindFuel_congr m t.length r.length r hr (Nat.le_refl _)]
  rfl

theorem reSubP_append_of_match {α : Type} {m : List Char → Option (α × List Char)}
    (emit : α → List Char) {x s : List Char} {a : α}
    (h : m (x ++ s) = some (a, s)) (hx : x ≠ []) :
    reSubP m emit (x ++ s) = emit a ++ reSubP m emit s := by
  cases x with
  | nil => cases hx rfl
  | cons c x =>
    rw [List.cons_append] at h ⊢
    exact reSubP_cons_of_match emit h (by simp)

theorem reFind_append_of_match {α : Type} {m : List Char → Option (α × List Char)}
    {x s : List Char} {a : α} (h : m (x ++ s) = some (a, s)) (hx : x ≠ []) :
    reFind m (x ++ s) = a :: reFind m s := by
  cases x with
  | nil => cases hx rfl
  | cons c x =>
    rw [List.cons_append] at h ⊢
    exact reFind_cons_of_match h (by simp)

theorem reSubP_append_of_skip {α : Type} {m : List Char → Option (α × List Char)}
    (emit : α → List Char) (hm : ∀ c t, c ≠ '{' → m (c :: t) = none)
    {p : List Char} (s : List Char) (hp : '{' ∉ p) :
    reSubP m emit (p ++ s) = p ++ reSubP m emit s := by
  induction p with
  | nil => rfl
  | cons c p ih =>
    have hc : c ≠ '{' := fun e => hp (e ▸ List.mem_cons_self c p)
    rw [List.cons_append, reSubP_cons_of_none emit (hm c _ hc),
      ih (fun hmem => hp (List.mem_cons_of_mem _ hmem)), List.cons_append]

theorem reFind_append_of_skip {α : Type} {m : List Char → Option (α × List Char)}
    (hm : ∀ c t, c ≠ '{' → m (c :: t) = none)
    {p : List Char} (s : List Char) (hp : '{' ∉ p) :
    reFind m (p ++ s) = reFind m s := by
  induction p with
  | nil => rfl
  | cons c p ih =>
    have hc : c ≠ '{' := fun e => hp (e ▸ List.mem_cons_self c p)
    rw [List.cons_append, reFind_cons_of_none (hm c _ hc),
      ih (fun hmem => hp (List.mem_cons_of_mem _ hmem))]

theorem reSubP_eq_self_of_skip {α : Type} {m : List Char → Option (α × List Char)}
    (emit : α → List Char) (hm : ∀ c t, c ≠ '{' → m (c :: t) = none)
    {s : List Char} (hs : '{' ∉ s) : reSubP m emit s = s := by
  have := @reSubP_append_of_skip _ _ emit hm s [] hs
  simpa [reSubP_nil] using this

theorem reFind_eq_nil_of_skip {α : Type} {m : List Char → Option (α × List Char)}
    (hm : ∀ c t, c ≠ '{' → m (c :: t) = none)
    {s : List Char} (hs : '{' ∉ s) : reFind m s = [] := by
  have := @reFind_append_of_skip _ _ hm s [] hs
  simpa [reFind_nil] using this

theorem reSubP_eq_self_of_none {α : Type} {m : List Char → Option (α × List Char)}
    (emit : α → List Char) {s : List Char}
    (h : ∀ c t, (c :: t) <:+ s → m (c :: t) = none) : reSubP m emit s = s := by
  induction s with
  | nil => rfl
  | cons c t ih =>
    rw [reSubP_cons_of_none emit (h c t List.suffix_rfl)]
    exact congrArg _ (ih fun c' t' hsfx => h c' t' (hsfx.trans (List.suffix_cons c t)))

/-! ## Character-class facts -/

theorem ne_of_word {c d : Char} (h : isWordC c = true) (hd : isWordC d = false) :
    c ≠ d := by
  intro e
  rw [e, hd] at h
  cases h

theorem word_not_space {c : Char} (h : isWordC c = true) : isSpace c = false := by
  cases hx : isSpace c
  · rfl
  · unfold isSpace at hx
    simp only [Bool.or_eq_true, beq_iff_eq] at hx
    rcases hx with ((((h1 | h1) | h1) | h1) | h1) | h1 <;> subst h1 <;>
      exact absurd h (by decide)

/-! ## Scans over character runs -/

theorem dropSpaces_append_word {n : List Char} (r : List Char) (hn : n ≠ [])
    (hw : ∀ c ∈ n, isWordC c = true) : dropSpaces (n ++ r) = n ++ r := by
  cases n with
  | nil => cases hn rfl
  | cons c t =>
    unfold dropSpaces
    rw [List.cons_append, List.dropWhile_cons,
      word_not_space (hw c (List.mem_cons_self c t))]
    rfl

theorem takeWhile_word_append {n : List Char} {d : Char} (r : List Char)
    (hw : ∀ c ∈ n, isWordC c = true) (hd : isWordC d = false) :
    ((n ++ d :: r).takeWhile isWordC) = n := by
  induction n with
  | nil => simp [List.takeWhile_cons, hd]
  | cons c t ih =>
    rw [List.cons_append, List.takeWhile_cons, hw c (List.mem_cons_self c t)]
    simp only [ite_true]
    rw [ih (fun c hc => hw c (List.mem_cons_of_mem _ hc))]

theorem dropWhile_word_append {n : List Char} {d : Char} (r : List Char)
    (hw : ∀ c ∈ n, isWordC c = true) (hd : isWordC d = false) :
    ((n ++ d :: r).dropWhile isWordC) = d :: r := by
  induction n with
  | nil => simp [List.dropWhile_cons, hd]
  | cons c t ih =>
    rw [List.cons_append, List.dropWhile_cons, hw c (List.mem_cons_self c t)]
    simp only [ite_true]
    exact ih (fun c hc => hw c (List.mem_cons_of_mem _ hc))

theorem takeWhile_nq_append {p : List Char} (r : List Char) (hp : '"' ∉ p) :
    ((p ++ '"' :: r).takeWhile notQuote) = p := by
  induction p with
  | nil => simp [List.takeWhile_cons, notQuote]
  | cons c t ih =>
    have hc : c ≠ '"' := fun e => hp (e ▸ List.mem_cons_self c t)
    rw [List.cons_append, List.takeWhile_cons]
    have : notQuote c = true := by simp [notQuote, hc]
    rw [this]
    simp only [ite_true]
    rw [ih (fun hmem => hp (List.mem_cons_of_mem _ hmem))]

theorem dropWhile_nq_append {p : List Char} (r : List Char) (hp : '"' ∉ p) :
    ((p ++ '"' :: r).dropWhile notQuote) = '"' :: r := by
  induction p with
  | nil => simp [List.dropWhile_cons, notQuote]
  | cons c t ih =>
    have hc : c ≠ '"' := fun e => hp (e ▸ List.mem_cons_self c t)
    rw [List.cons_append, List.dropWhile_cons]
    have : notQuote c = true := by simp [notQuote, hc]
    rw [this]
    simp only [ite_true]
    exact ih (fun hmem => hp (List.mem_cons_of_mem _ hmem))

/-! ## Matcher failure off an opening brace -/

theorem mExtends_head {c : Char} {t : List Char} (hc : c ≠ '{') :
    mExtends (c :: t) = none := by
  unfold mExtends
  split
  · rename_i r heq
    rw [List.cons.injEq] at heq
    exact absurd heq.1 hc
  · rfl

theorem mInclude_head {c : Char} {t : List Char} (hc : c ≠ '{') :
    mInclude (c :: t) = none := by
  unfold mInclude
  split
  · rename_i r heq
    rw [List.cons.injEq] at heq
    exact absurd heq.1 hc
  · rfl

theorem mBlockOpen_head {c : Char} {t : List Char} (hc : c ≠ '{') :
    mBlockOpen (c :: t) = none := by
  unfold mBlockOpen
  split
  · rename_i r heq
    rw [List.cons.injEq] at heq
    exact absurd heq.1 hc
  · rfl

theorem mBlockClose_head {c : Char} {t : List Char} (hc : c ≠ '{') :
    mBlockClose (c :: t) = none := by
  unfold mBlockClose
  split
  · rename_i r heq
    rw [List.cons.injEq] at heq
    exact absurd heq.1 hc
  · rfl

theorem mBlock_head {c : Char} {t : List Char} (hc : c ≠ '{') :
    mBlock (c :: t) = none := by
  unfold mBlock
  rw [mBlockOpen_head hc]

theorem mDefault_head {c : Char} {t : List Char} (hc : c ≠ '{') :
    mDefault (c :: t) = none := by
  unfold mDefault
  split
  · rename_i r heq
    rw [List.cons.injEq] at heq
    exact absurd heq.1 hc
  · rfl

theorem mDirStrip_head {c : Char} {t : List Char} (hc : c ≠ '{') :
    mDirStrip (c :: t) = none := by
  unfold mDirStrip
  split
  · rename_i r heq
    rw [List.cons.injEq] at heq
    exact absurd heq.1 hc
  · rfl

theorem mVarStrip_head {c : Char} {t : List Char} (hc : c ≠ '{') :
    mVarStrip (c :: t) = none := by
  unfold mVarStrip
  split
  · rename_i r heq
    rw [List.cons.injEq] at heq
    exact absurd heq.1 hc
  · rfl

theorem mLit_head {q rep : List Char} {c d : Char} {t : List Char} (hc : c ≠ d) :
    mLit (d :: q) rep (c :: t) = none := by
  unfold mLit
  have : (d :: q).isPrefixOf (c :: t) = false := by
    show (d == c && q.isPrefixOf t) = false
    have : (d == c) = false := by
      simp only [beq_eq_false_iff_ne, ne_eq]
      exact fun e => hc e.symm
    rw [this, Bool.false_and]
  rw [this]
  rfl

/-! ## Matcher failure off the second pattern character -/

theorem mDirStrip_second {c : Char} {t : List Char} (hc : c ≠ '%') :
    mDirStrip ('{' :: c :: t) = none := by
  unfold mDirStrip
  split
  · rename_i r heq
    rw [List.cons.injEq, List.cons.injEq] at heq
    exact absurd heq.2.1 hc
  · rfl

theorem mVarStrip_second {c : Char} {t : List Char} (hc : c ≠ '{') :
    mVarStrip ('{' :: c :: t) = none := by
  unfold mVarStrip
  split
  · rename_i r heq
    rw [List.cons.injEq, List.cons.injEq] at heq
    exact absurd heq.2.1 hc
  · rfl

theorem mDefault_second {c : Char} {t : List Char} (hc : c ≠ '{') :
    mDefault ('{' :: c :: t) = none := by
  unfold mDefault
  split
  · rename_i r heq
    rw [List.cons.injEq, List.cons.injEq] at heq
    exact absurd heq.2.1 hc
  · rfl

theorem mBlockOpen_second {c : Char} {t : List Char} (hc : c ≠ '%') :
    mBlockOpen ('{' :: c :: t) = none := by
  unfold mBlockOpen
  split
  · rename_i r heq
    rw [List.cons.injEq, List.cons.injEq] at heq
    exact absurd heq.2.1 hc
  · rfl

theorem mBlockClose_second {c : Char} {t : List Char} (hc : c ≠ '%') :
    mBlockClose ('{' :: c :: t) = none := by
  unfold mBlockClose
  split
  · rename_i r heq
    rw [List.cons.injEq, List.cons.injEq] at heq
    exact absurd heq.2.1 hc
  · rfl

theorem mBlock_second {c : Char} {t : List Char} (hc : c ≠ '%') :
    mBlock ('{' :: c :: t) = none := by
  unfold mBlock
  rw [mBlockOpen_second hc]

/-! ## Matcher success on canonical directive texts -/

theorem dropSpaces_cons_space (x : List Char) : dropSpaces (' ' :: x) = dropSpaces x := rfl

theorem mBlockClose_at (s : List Char) : mBlockClose (blkCloseTxt ++ s) = some s := rfl

theorem mBlockOpen_at {n : List Char} (s : List Char) (hn : n ≠ [])
    (hw : ∀ c ∈ n, isWordC c = true) :
    mBlockOpen (blkOpenTxt n ++ s) = some (n, s) := by
  have hne : n.isEmpty = false := by
    cases n
    · cases hn rfl
    · rfl
  have e : blkOpenTxt n ++ s =
      '{' :: '%' :: ' ' :: 'b' :: 'l' :: 'o' :: 'c' :: 'k' :: ' ' :: (n ++ (' ' :: '%' :: '}' :: s)) := by
    simp [blkOpenTxt, kwBlock]
  rw [e]
  show (if ((dropSpaces (n ++ (' ' :: '%' :: '}' :: s))).takeWhile isWordC).isEmpty then none
        else
          match dropSpaces ((dropSpaces (n ++ (' ' :: '%' :: '}' :: s))).dropWhile isWordC) with
          | '%' :: '}' :: rest =>
            some ((dropSpaces (n ++ (' ' :: '%' :: '}' :: s))).takeWhile isWordC, rest)
          | _ => none) = some (n, s)
  rw [dropSpaces_append_word _ hn hw]
  rw [takeWhile_word_append _ hw (by decide), dropWhile_word_append _ hw (by decide)]
  rw [dropSpaces_cons_space]
  simp [hne]
  rfl

theorem scanBlockClose_close {s x : List Char} (h : mBlockClose s = some x)
    (hs : s ≠ []) : scanBlockClose s = some ([], x) := by
  cases s with
  | nil => cases hs rfl
  | cons c t =>
    simp only [scanBlockClose]
    rw [h]

theorem scanBlockClose_step {c : Char} {t : List Char}
    (h : mBlockClose (c :: t) = none) :
    scanBlockClose (c :: t) = (scanBlockClose t).map (fun p => (c :: p.1, p.2)) := by
  simp only [scanBlockClose]
  rw [h]

theorem scanBlockClose_at {b : List Char} (s : List Char) (hb : '{' ∉ b) :
    scanBlockClose (b ++ (blkCloseTxt ++ s)) = some (b, s) := by
  induction b with
  | nil =>
    rw [List.nil_append]
    exact scanBlockClose_close (mBlockClose_at s) (by simp [blkCloseTxt])
  | cons c b ih =>
    have hc : c ≠ '{' := fun e => hb (e ▸ List.mem_cons_self c b)
    rw [List.cons_append, scanBlockClose_step (mBlockClose_head hc),
      ih (fun hmem => hb (List.mem_cons_of_mem _ hmem))]
    rfl

theorem mBlock_at {n b : List Char} (s : List Char) (hn : n ≠ [])
    (hw : ∀ c ∈ n, isWordC c = true) (hb : '{' ∉ b) :
    mBlock (blkTxt n b ++ s) = some ((n, b), s) := by
  unfold mBlock
  have e : blkTxt n b ++ s = blkOpenTxt n ++ (b ++ (blkCloseTxt ++ s)) := by
    simp [blkTxt]
  rw [e, mBlockOpen_at _ hn hw]
  show (match scanBlockClose (b ++ (blkCloseTxt ++ s)) with
        | none => none
        | some (body, rest) => some ((n, body), rest)) = some ((n, b), s)
  rw [scanBlockClose_at _ hb]

theorem mExtends_at {p : List Char} (s : List Char) (hp : p ≠ []) (hq : '"' ∉ p) :
    mExtends (extendsTxt p ++ s) = some (p, s) := by
  have hne : p.isEmpty = false := by
    cases p
    · cases hp rfl
    · rfl
  have e : extendsTxt p ++ s =
      '{' :: '%' :: ' ' :: 'e' :: 'x' :: 't' :: 'e' :: 'n' :: 'd' :: 's' :: ' ' :: '"' ::
        (p ++ ('"' :: ' ' :: '%' :: '}' :: s)) := by
    simp [extendsTxt, kwExtends]
  rw [e]
  show (if ((p ++ ('"' :: ' ' :: '%' :: '}' :: s)).takeWhile notQuote).isEmpty then none
        else
          match (p ++ ('"' :: ' ' :: '%' :: '}' :: s)).dropWhile notQuote with
          | '"' :: r₄ =>
            match dropSpaces r₄ with
            | '%' :: '}' :: rest =>
              some ((p ++ ('"' :: ' ' :: '%' :: '}' :: s)).takeWhile notQuote, rest)
            | _ => none
          | _ => none) = some (p, s)
  rw [takeWhile_nq_append _ hq, dropWhile_nq_append _ hq]
  simp [hne]
  rfl

/-! ## Structured texts under the block scan -/

theorem scanBlockCloseNL_close {s x : List Char} (h : mBlockClose s = some x)
    (hs : s ≠ []) : scanBlockCloseNL s = some ([], x) := by
  cases s with
  | nil => cases hs rfl
  | cons c t =>
    simp only [scanBlockCloseNL]
    rw [h]

theorem scanBlockCloseNL_step {c : Char} {t : List Char}
    (h : mBlockClose (c :: t) = none) (hc : c ≠ '\n') :
    scanBlockCloseNL (c :: t) =
      (scanBlockCloseNL t).map (fun p => (c :: p.1, p.2)) := by
  simp only [scanBlockCloseNL]
  rw [h, if_neg hc]

theorem scanBlockCloseNL_at {b : List Char} (s : List Char) (hb : '{' ∉ b)
    (hnl : '\n' ∉ b) :
    scanBlockCloseNL (b ++ (blkCloseTxt ++ s)) = some (b, s) := by
  induction b with
  | nil =>
    rw [List.nil_append]
    exact scanBlockCloseNL_close (mBlockClose_at s) (by simp [blkCloseTxt])
  | cons c b ih =>
    have hc : c ≠ '{' := fun e => hb (e ▸ List.mem_cons_self c b)
    have hcn : c ≠ '\n' := fun e => hnl (e ▸ List.mem_cons_self c b)
    rw [List.cons_append, scanBlockCloseNL_step (mBlockClose_head hc) hcn,
      ih (fun hm => hb (List.mem_cons_of_mem _ hm))
        (fun hm => hnl (List.mem_cons_of_mem _ hm))]
    rfl

theorem mBlockSub_head {c : Char} {t : List Char} (hc : c ≠ '{') :
    mBlockSub (c :: t) = none := by
  unfold mBlockSub
  rw [mBlockOpen_head hc]

theorem mBlockSub_second {c : Char} {t : List Char} (hc : c ≠ '%') :
    mBlockSub ('{' :: c :: t) = none := by
  unfold mBlockSub
  rw [mBlockOpen_second hc]

theorem mBlockSub_at {n b : List Char} (s : List Char) (hn : n ≠ [])
    (hw : ∀ c ∈ n, isWordC c = true) (hb : '{' ∉ b) (hnl : '\n' ∉ b) :
    mBlockSub (blkTxt n b ++ s) = some ((n, b), s) := by
  unfold mBlockSub
  have e : blkTxt n b ++ s = blkOpenTxt n ++ (b ++ (blkCloseTxt ++ s)) := by
    simp [blkTxt]
  rw [e, mBlockOpen_at _ hn hw]
  show (match scanBlockCloseNL (b ++ (blkCloseTxt ++ s)) with
        | none => none
        | some (body, rest) => some ((n, body), rest)) = some ((n, b), s)
  rw [scanBlockCloseNL_at _ hb hnl]

theorem okSub_imp_ok (p : TPart) (h : p.OkSub) : p.Ok := by
  cases p with
  | lit s => exact h
  | blk n b =>
    obtain ⟨h1, h2, h3, _⟩ := h
    exact ⟨h1, h2, h3⟩

theorem sub_blocks_structured (bm : List (List Char × List Char)) :
    ∀ ps : List TPart, (∀ p ∈ ps, p.OkSub) →
      sub_blocks bm (flattenT ps) = renderT bm ps := by
  intro ps
  induction ps with
  | nil => intro _; rfl
  | cons p ps ih =>
    intro h
    have hp := h p (List.mem_cons_self p ps)
    have hps := fun q hq => h q (List.mem_cons_of_mem _ hq)
    have ihe := ih hps
    unfold sub_blocks at ihe ⊢
    cases p with
    | lit s =>
      show reSubP mBlockSub (replace_block bm) (s ++ flattenT ps) = s ++ renderT bm ps
      rw [reSubP_append_of_skip _ (fun c t hc => mBlockSub_head hc) _ hp, ihe]
    | blk n b =>
      obtain ⟨hn, hw, hb, hnl⟩ := hp
      show reSubP mBlockSub (replace_block bm) (blkTxt n b ++ flattenT ps) =
        (TPart.blk n b).render bm ++ renderT bm ps
      rw [reSubP_append_of_match _ (mBlockSub_at _ hn hw hb hnl)
        (by simp [blkTxt, blkOpenTxt]), ihe]
      rfl

theorem extract_blocks_structured :
    ∀ ps : List TPart, (∀ p ∈ ps, p.Ok) →
      extract_blocks (flattenT ps) = blocksT ps := by
  intro ps
  induction ps with
  | nil => intro _; rfl
  | cons p ps ih =>
    intro h
    have hp := h p (List.mem_cons_self p ps)
    have hps := fun q hq => h q (List.mem_cons_of_mem _ hq)
    have ihe := ih hps
    unfold extract_blocks at ihe ⊢
    cases p with
    | lit s =>
      show reFind mBlock (s ++ flattenT ps) = blocksT (TPart.lit s :: ps)
      rw [reFind_append_of_skip (fun c t hc => mBlock_head hc) _ hp, ihe]
      rfl
    | blk n b =>
      obtain ⟨hn, hw, hb⟩ := hp
      show reFind mBlock (blkTxt n b ++ flattenT ps) = blocksT (TPart.blk n b :: ps)
      rw [reFind_append_of_match (mBlock_at _ hn hw hb) (by simp [blkTxt, blkOpenTxt]), ihe]
      rfl

theorem findDirClose_step {c : Char} {t : List Char} (hc : c ≠ '%') (hn : c ≠ '\n') :
    findDirClose (c :: t) = findDirClose t := by
  conv_lhs => unfold findDirClose
  split
  · rename_i r heq
    rw [List.cons.injEq] at heq
    exact absurd heq.1 hc
  · rename_i x heq
    rw [List.cons.injEq] at heq
    exact absurd heq.1 hn
  · rename_i x r heq
    rw [List.cons.injEq] at heq
    rw [heq.2]
  · rename_i heq
    cases heq

theorem findVarClose_step {c : Char} {t : List Char} (hc : c ≠ '}') (hn : c ≠ '\n') :
    findVarClose (c :: t) = findVarClose t := by
  conv_lhs => unfold findVarClose
  split
  · rename_i r heq
    rw [List.cons.injEq] at heq
    exact absurd heq.1 hc
  · rename_i x heq
    rw [List.cons.injEq] at heq
    exact absurd heq.1 hn
  · rename_i x r heq
    rw [List.cons.injEq] at heq
    rw [heq.2]
  · rename_i heq
    cases heq

theorem findDirClose_at {b : List Char} (r : List Char) (hb : '%' ∉ b)
    (hn : '\n' ∉ b) : findDirClose (b ++ ('%' :: '}' :: r)) = some r := by
  induction b with
  | nil => rfl
  | cons c t ih =>
    rw [List.cons_append,
      findDirClose_step (fun e => hb (e ▸ List.mem_cons_self c t))
        (fun e => hn (e ▸ List.mem_cons_self c t)),
      ih (fun h => hb (List.mem_cons_of_mem _ h)) (fun h => hn (List.mem_cons_of_mem _ h))]

theorem findVarClose_at {b : List Char} (r : List Char) (hb : '}' ∉ b)
    (hn : '\n' ∉ b) : findVarClose (b ++ ('}' :: '}' :: r)) = some r := by
  induction b with
  | nil => rfl
  | cons c t ih =>
    rw [List.cons_append,
      findVarClose_step (fun e => hb (e ▸ List.mem_cons_self c t))
        (fun e => hn (e ▸ List.mem_cons_self c t)),
      ih (fun h => hb (List.mem_cons_of_mem _ h)) (fun h => hn (List.mem_cons_of_mem _ h))]

theorem mDirStrip_at {b : List Char} (r : List Char) (hb : '%' ∉ b)
    (hn : '\n' ∉ b) :
    mDirStrip ('{' :: '%' :: (b ++ ('%' :: '}' :: r))) = some ([], r) := by
  unfold mDirStrip
  show Option.map (fun rest => (([] : List Char), rest)) (findDirClose (b ++ ('%' :: '}' :: r))) =
    some ([], r)
  rw [findDirClose_at r hb hn]
  rfl

theorem mVarStrip_at {b : List Char} (r : List Char) (hb : '}' ∉ b)
    (hn : '\n' ∉ b) :
    mVarStrip ('{' :: '{' :: (b ++ ('}' :: '}' :: r))) = some ([], r) := by
  unfold mVarStrip
  show Option.map (fun rest => (([] : List Char), rest)) (findVarClose (b ++ ('}' :: '}' :: r))) =
    some ([], r)
  rw [findVarClose_at r hb hn]
  rfl

/-! ## Substring and membership facts -/

theorem containsSub_of_suffix {pat s q : List Char} (hq : q <:+ s)
    (hp : pat.isPrefixOf q = true) : containsSub pat s = true := by
  induction s with
  | nil =>
    have hz : q = [] := List.eq_nil_of_suffix_nil hq
    subst hz
    exact hp
  | cons c t ih =>
    rcases List.suffix_cons_iff.mp hq with h | h
    · subst h
      unfold containsSub
      rw [hp]
      rfl
    · unfold containsSub
      rw [ih h, Bool.or_true]

theorem containsSub_false_of_head {q s : List Char} (hs : '{' ∉ s) :
    containsSub ('{' :: q) s = false := by
  induction s with
  | nil => rfl
  | cons c t ih =>
    have hc : c ≠ '{' := fun e => hs (e ▸ List.mem_cons_self c t)
    unfold containsSub
    have h1 : ('{' :: q).isPrefixOf (c :: t) = false := by
      show (('{' == c) && q.isPrefixOf t) = false
      have hb : ('{' == c) = false := by
        simp only [beq_eq_false_iff_ne, ne_eq]
        exact fun e => hc e.symm
      rw [hb, Bool.false_and]
    rw [h1, ih (fun hmem => hs (List.mem_cons_of_mem _ hmem)), Bool.or_self]

theorem existsMatchB_false {α : Type} {m : List Char → Option α}
    (hm : ∀ c t, c ≠ '{' → m (c :: t) = none) (hnil : m [] = none)
    {s : List Char} (hs : '{' ∉ s) : existsMatchB m s = false := by
  induction s with
  | nil =>
    unfold existsMatchB
    rw [hnil]
    rfl
  | cons c t ih =>
    have hc : c ≠ '{' := fun e => hs (e ▸ List.mem_cons_self c t)
    unfold existsMatchB
    rw [hm c t hc, ih (fun hmem => hs (List.mem_cons_of_mem _ hmem))]
    rfl

theorem lookupLast_mem {bm : List (List Char × List Char)} {n v : List Char}
    (h : lookupLast bm n = some v) : ∃ k, (k, v) ∈ bm := by
  induction bm with
  | nil => cases h
  | cons kv bm ih =>
    obtain ⟨k₀, v₀⟩ := kv
    unfold lookupLast at h
    cases hx : lookupLast bm n with
    | some r =>
      simp only [hx] at h
      injection h with h1
      subst h1
      obtain ⟨k, hk⟩ := ih hx
      exact ⟨k, List.mem_cons_of_mem _ hk⟩
    | none =>
      simp only [hx] at h
      by_cases hk : k₀ = n
      · rw [if_pos hk] at h
        injection h with h1
        subst h1
        exact ⟨k₀, List.mem_cons_self _ _⟩
      · rw [if_neg hk] at h
        cases h

theorem isPrefixOf_append_self (pat r : List Char) :
    pat.isPrefixOf (pat ++ r) = true := by
  induction pat with
  | nil => simp
  | cons c p ih =>
    rw [List.cons_append, List.isPrefixOf_cons₂, beq_self_eq_true, ih, Bool.and_self]

theorem mLit_self (pat rep r : List Char) :
    mLit pat rep (pat ++ r) = some (rep, r) := by
  unfold mLit
  rw [isPrefixOf_append_self]
  simp only [ite_true]
  rw [List.drop_left]

theorem dropSpaces_cons_of {c : Char} (x : List Char) (h : isSpace c = false) :
    dropSpaces (c :: x) = c :: x := by
  unfold dropSpaces
  rw [List.dropWhile_cons, h]
  rfl

theorem expect_self (litx r : List Char) : expect litx (litx ++ r) = some r := by
  unfold expect
  rw [isPrefixOf_append_self]
  simp only [ite_true]
  rw [List.drop_left]

theorem dropSpaces_kwDefault (x : List Char) :
    dropSpaces (kwDefaultVal ++ x) = kwDefaultVal ++ x := by
  have e : kwDefaultVal ++ x =
      'd' :: (['e', 'f', 'a', 'u', 'l', 't', '(', 'v', 'a', 'l', 'u', 'e', '=', '"'] ++ x) := by
    simp [kwDefaultVal]
  rw [e, dropSpaces_cons_of _ (by decide)]

theorem mDefault_at {idn lit : List Char} (s : List Char) (hn : idn ≠ [])
    (hw : ∀ c ∈ idn, isWordC c = true) (hl : lit ≠ []) (hq : '"' ∉ lit) :
    mDefault (dfltTxt idn lit ++ s) = some (lit, s) := by
  have hne : idn.isEmpty = false := by
    cases idn
    · cases hn rfl
    · rfl
  have hle : lit.isEmpty = false := by
    cases lit
    · cases hl rfl
    · rfl
  have e : dfltTxt idn lit ++ s =
      '{' :: '{' :: ' ' ::
        (idn ++ (' ' :: '|' :: ' ' ::
          (kwDefaultVal ++ (lit ++ ('"' :: ')' :: ' ' :: '}' :: '}' :: s))))) := by
    simp [dfltTxt]
  rw [e]
  show (if ((dropSpaces (idn ++ (' ' :: '|' :: ' ' ::
            (kwDefaultVal ++ (lit ++ ('"' :: ')' :: ' ' :: '}' :: '}' :: s)))))).takeWhile
            isWordC).isEmpty = true then none
        else
          match dropSpaces ((dropSpaces (idn ++ (' ' :: '|' :: ' ' ::
              (kwDefaultVal ++ (lit ++ ('"' :: ')' :: ' ' :: '}' :: '}' :: s)))))).dropWhile
              isWordC) with
          | '|' :: r₃ =>
            match expect kwDefaultVal (dropSpaces r₃) with
            | none => none
            | some r₄ =>
              if (r₄.takeWhile notQuote).isEmpty = true then none
              else
                match r₄.dropWhile notQuote with
                | '"' :: ')' :: r₅ =>
                  match dropSpaces r₅ with
                  | '}' :: '}' :: rest => some (r₄.takeWhile notQuote, rest)
                  | _ => none
                | _ => none
          | _ => none) = some (lit, s)
  rw [dropSpaces_append_word _ hn hw]
  rw [takeWhile_word_append _ hw (by decide), dropWhile_word_append _ hw (by decide)]
  rw [hne]
  simp only [Bool.false_eq_true, if_false]
  rw [dropSpaces_cons_space, dropSpaces_cons_of _ (by decide)]
  show (match expect kwDefaultVal (dropSpaces (' ' ::
        (kwDefaultVal ++ (lit ++ ('"' :: ')' :: ' ' :: '}' :: '}' :: s))))) with
      | none => none
      | some r₄ =>
        if (r₄.takeWhile notQuote).isEmpty = true then none
        else
          match r₄.dropWhile notQuote with
          | '"' :: ')' :: r₅ =>
            match dropSpaces r₅ with
            | '}' :: '}' :: rest => some (r₄.takeWhile notQuote, rest)
            | _ => none
          | _ => none) = some (lit, s)
  rw [dropSpaces_cons_space, dropSpaces_kwDefault, expect_self]
  show (if ((lit ++ ('"' :: ')' :: ' ' :: '}' :: '}' :: s)).takeWhile notQuote).isEmpty = true
        then none
        else
          match (lit ++ ('"' :: ')' :: ' ' :: '}' :: '}' :: s)).dropWhile notQuote with
          | '"' :: ')' :: r₅ =>
            match dropSpaces r₅ with
            | '}' :: '}' :: rest =>
              some ((lit ++ ('"' :: ')' :: ' ' :: '}' :: '}' :: s)).takeWhile notQuote, rest)
            | _ => none
          | _ => none) = some (lit, s)
  rw [takeWhile_nq_append _ hq, dropWhile_nq_append _ hq, hle]
  simp only [Bool.false_eq_true, if_false]
  rfl

theorem mDefault_at_spacedVar {k : List Char} (r : List Char) (hk : k ≠ [])
    (hw : ∀ c ∈ k, isWordC c = true) : mDefault (spacedVar k ++ r) = none := by
  have hne : k.isEmpty = false := by
    cases k
    · cases hk rfl
    · rfl
  have e : spacedVar k ++ r = '{' :: '{' :: ' ' :: (k ++ (' ' :: '}' :: '}' :: r)) := by
    simp [spacedVar]
  rw [e]
  show (if ((dropSpaces (k ++ (' ' :: '}' :: '}' :: r))).takeWhile isWordC).isEmpty = true
        then none
        else
          match dropSpaces ((dropSpaces (k ++ (' ' :: '}' :: '}' :: r))).dropWhile isWordC) with
          | '|' :: r₃ =>
            match expect kwDefaultVal (dropSpaces r₃) with
            | none => none
            | some r₄ =>
              if (r₄.takeWhile notQuote).isEmpty = true then none
              else
                match r₄.dropWhile notQuote with
                | '"' :: ')' :: r₅ =>
                  match dropSpaces r₅ with
                  | '}' :: '}' :: rest => some (r₄.takeWhile notQuote, rest)
                  | _ => none
                | _ => none
          | _ => none) = none
  rw [dropSpaces_append_word _ hk hw]
  rw [takeWhile_word_append _ hw (by decide), dropWhile_word_append _ hw (by decide)]
  rw [hne]
  simp only [Bool.false_eq_true, if_false]
  rw [dropSpaces_cons_space, dropSpaces_cons_of _ (by decide)]
  rfl

/-! ## Placeholder patterns never match inside other spans -/

theorem mLit_no_match {pat rep s : List Char}
    (h : pat.isPrefixOf s = false) : mLit pat rep s = none := by
  unfold mLit
  rw [h]
  rfl

theorem key_prefix_false : ∀ (k w : List Char), ' ' ∉ k →
    (∀ c ∈ w, isWordC c = true) → ∀ (r₁ r₂ : List Char),
    (k = w → r₁.isPrefixOf r₂ = false) →
    (k ++ (' ' :: r₁)).isPrefixOf (w ++ (' ' :: r₂)) = false := by
  intro k
  induction k with
  | nil =>
    intro w _ hw r₁ r₂ hlast
    cases w with
    | nil =>
      simp only [List.nil_append]
      rw [List.isPrefixOf_cons₂, hlast rfl]
      simp
    | cons c w' =>
      simp only [List.nil_append, List.cons_append]
      rw [List.isPrefixOf_cons₂]
      have hb : (' ' == c) = false := by
        simp only [beq_eq_false_iff_ne, ne_eq]
        exact fun e => (ne_of_word (hw c (List.mem_cons_self c w')) (by decide)) e.symm
      rw [hb, Bool.false_and]
  | cons a k' ih =>
    intro w hk hw r₁ r₂ hlast
    have ha : a ≠ ' ' := fun e => hk (e ▸ List.mem_cons_self a k')
    cases w with
    | nil =>
      simp only [List.cons_append, List.nil_append]
      rw [List.isPrefixOf_cons₂]
      have hb : (a == ' ') = false := by
        simp only [beq_eq_false_iff_ne, ne_eq]
        exact ha
      rw [hb, Bool.false_and]
    | cons c w' =>
      simp only [List.cons_append]
      rw [List.isPrefixOf_cons₂]
      by_cases hac : a = c
      · subst hac
        rw [ih w' (fun h => hk (List.mem_cons_of_mem _ h))
          (fun x hx => hw x (List.mem_cons_of_mem _ hx)) r₁ r₂
          (fun he => hlast (by rw [he]))]
        simp
      · have hb : (a == c) = false := by
          simp only [beq_eq_false_iff_ne, ne_eq]
          exact hac
        rw [hb, Bool.false_and]

theorem append_prefix_space_false {k : List Char} (hk : ' ' ∉ k) (q X : List Char) :
    (k ++ ('}' :: q)).isPrefixOf (' ' :: X) = false := by
  cases k with
  | nil =>
    rw [List.nil_append, List.isPrefixOf_cons₂]
    simp
  | cons a k' =>
    have ha : a ≠ ' ' := fun e => hk (e ▸ List.mem_cons_self a k')
    rw [List.cons_append, List.isPrefixOf_cons₂]
    have hb : (a == ' ') = false := by
      simp only [beq_eq_false_iff_ne, ne_eq]
      exact ha
    rw [hb, Bool.false_and]

theorem brace2_prefix_false {d : Char} (hd : d ≠ '{') (q X : List Char) :
    ('{' :: '{' :: q).isPrefixOf ('{' :: d :: X) = false := by
  rw [List.isPrefixOf_cons₂, List.isPrefixOf_cons₂]
  have hb : ('{' == d) = false := by
    simp only [beq_eq_false_iff_ne, ne_eq]
    exact fun e => hd e.symm
  rw [hb, Bool.false_and, Bool.and_false]

/-! ## The named block-close is not recognised -/

theorem mBlockOpen_nil : mBlockOpen [] = none := rfl

theorem mBlockClose_nil : mBlockClose [] = none := rfl

theorem mBlockOpen_endblock (n s : List Char) :
    mBlockOpen (blkCloseNamedTxt n ++ s) = none := rfl

theorem mBlock_endblock (n s : List Char) :
    mBlock (blkCloseNamedTxt n ++ s) = none := rfl

theorem mBlockClose_named {n : List Char} (s : List Char) (hn : n ≠ [])
    (hw : ∀ c ∈ n, isWordC c = true) :
    mBlockClose (blkCloseNamedTxt n ++ s) = none := by
  have e : blkCloseNamedTxt n ++ s =
      '{' :: '%' :: ' ' :: 'e' :: 'n' :: 'd' :: 'b' :: 'l' :: 'o' :: 'c' :: 'k' :: ' ' ::
        (n ++ (' ' :: '%' :: '}' :: s)) := by
    simp [blkCloseNamedTxt, kwEndblock]
  rw [e]
  show (match dropSpaces (n ++ (' ' :: '%' :: '}' :: s)) with
        | '%' :: '}' :: rest => some rest
        | _ => none) = none
  rw [dropSpaces_append_word _ hn hw]
  cases n with
  | nil => cases hn rfl
  | cons c t =>
    rw [List.cons_append]
    have hc : c ≠ '%' := ne_of_word (hw c (List.mem_cons_self c t)) (by decide)
    split
    · rename_i rest heq
      rw [List.cons.injEq] at heq
      exact absurd heq.1 hc
    · rfl

theorem scanBlockClose_no_brace {s : List Char} (hs : '{' ∉ s) :
    scanBlockClose s = none := by
  induction s with
  | nil => rfl
  | cons c t ih =>
    have hc : c ≠ '{' := fun e => hs (e ▸ List.mem_cons_self c t)
    rw [scanBlockClose_step (mBlockClose_head hc),
      ih (fun h => hs (List.mem_cons_of_mem _ h))]
    rfl

theorem word_no_brace {n : List Char} (hw : ∀ c ∈ n, isWordC c = true) : '{' ∉ n :=
  fun hmem => absurd (hw '{' hmem) (by decide)

theorem scanBlockClose_named {b n : List Char} (hb : '{' ∉ b) (hn : n ≠ [])
    (hw : ∀ c ∈ n, isWordC c = true) :
    scanBlockClose (b ++ blkCloseNamedTxt n) = none := by
  induction b with
  | nil =>
    rw [List.nil_append]
    have hcl : mBlockClose (blkCloseNamedTxt n) = none := by
      have := mBlockClose_named [] hn hw
      rwa [List.append_nil] at this
    have e : blkCloseNamedTxt n =
        '{' :: ('%' :: ' ' :: 'e' :: 'n' :: 'd' :: 'b' :: 'l' :: 'o' :: 'c' :: 'k' :: ' ' ::
          (n ++ [' ', '%', '}'])) := by
      simp [blkCloseNamedTxt, kwEndblock]
    rw [e] at hcl ⊢
    rw [scanBlockClose_step hcl]
    have hrest : '{' ∉ '%' :: ' ' :: 'e' :: 'n' :: 'd' :: 'b' :: 'l' :: 'o' :: 'c' :: 'k' :: ' ' ::
        (n ++ [' ', '%', '}']) := by
      intro hmem
      simp only [List.mem_cons, List.mem_append] at hmem
      rcases hmem with h | h | h | h | h | h | h | h | h | h | h | h
      all_goals first
        | exact absurd h (by decide)
        | (rcases h with h | h
           · exact absurd (hw '{' h) (by decide)
           · exact absurd h (by decide))
    rw [scanBlockClose_no_brace hrest]
    rfl
  | cons c b' ih =>
    have hc : c ≠ '{' := fun e => hb (e ▸ List.mem_cons_self c b')
    rw [List.cons_append, scanBlockClose_step (mBlockClose_head hc),
      ih (fun h => hb (List.mem_cons_of_mem _ h))]
    rfl

theorem scanBlockCloseNL_nl {t : List Char} : scanBlockCloseNL ('\n' :: t) = none := by
  simp only [scanBlockCloseNL]
  rw [mBlockClose_head (by decide)]
  simp

theorem scanBlockCloseNL_no_brace {s : List Char} (hs : '{' ∉ s) :
    scanBlockCloseNL s = none := by
  induction s with
  | nil => rfl
  | cons c t ih =>
    have hc : c ≠ '{' := fun e => hs (e ▸ List.mem_cons_self c t)
    by_cases hcn : c = '\n'
    · subst hcn
      exact scanBlockCloseNL_nl
    · rw [scanBlockCloseNL_step (mBlockClose_head hc) hcn,
        ih (fun h => hs (List.mem_cons_of_mem _ h))]
      rfl

theorem scanBlockCloseNL_named {b n : List Char} (hb : '{' ∉ b) (hn : n ≠ [])
    (hw : ∀ c ∈ n, isWordC c = true) :
    scanBlockCloseNL (b ++ blkCloseNamedTxt n) = none := by
  induction b with
  | nil =>
    rw [List.nil_append]
    have hcl : mBlockClose (blkCloseNamedTxt n) = none := by
      have := mBlockClose_named [] hn hw
      rwa [List.append_nil] at this
    have e : blkCloseNamedTxt n =
        '{' :: ('%' :: ' ' :: 'e' :: 'n' :: 'd' :: 'b' :: 'l' :: 'o' :: 'c' :: 'k' :: ' ' ::
          (n ++ [' ', '%', '}'])) := by
      simp [blkCloseNamedTxt, kwEndblock]
    rw [e] at hcl ⊢
    rw [scanBlockCloseNL_step hcl (by decide)]
    have hrest : '{' ∉ '%' :: ' ' :: 'e' :: 'n' :: 'd' :: 'b' :: 'l' :: 'o' :: 'c' :: 'k' :: ' ' ::
        (n ++ [' ', '%', '}']) := by
      intro hmem
      simp only [List.mem_cons, List.mem_append] at hmem
      rcases hmem with h | h | h | h | h | h | h | h | h | h | h | h
      all_goals first
        | exact absurd h (by decide)
        | (rcases h with h | h
           · exact absurd (hw '{' h) (by decide)
           · exact absurd h (by decide))
    rw [scanBlockCloseNL_no_brace hrest]
    rfl
  | cons c b' ih =>
    have hc : c ≠ '{' := fun e => hb (e ▸ List.mem_cons_self c b')
    by_cases hcn : c = '\n'
    · subst hcn
      rw [List.cons_append]
      exact scanBlockCloseNL_nl
    · rw [List.cons_append, scanBlockCloseNL_step (mBlockClose_head hc) hcn,
        ih (fun h => hb (List.mem_cons_of_mem _ h))]
      rfl

theorem mBlockSub_named_none {n b : List Char} (hn : n ≠ [])
    (hw : ∀ c ∈ n, isWordC c = true) (hb : '{' ∉ b) :
    mBlockSub (blkNamedTxt n b) = none := by
  unfold mBlockSub
  have e : blkNamedTxt n b = blkOpenTxt n ++ (b ++ blkCloseNamedTxt n) := by
    simp [blkNamedTxt]
  rw [e, mBlockOpen_at _ hn hw]
  show (match scanBlockCloseNL (b ++ blkCloseNamedTxt n) with
        | none => none
        | some (body, rest) => some ((n, body), rest)) = none
  rw [scanBlockCloseNL_named hb hn hw]

theorem mBlockSub_endblock (n s : List Char) :
    mBlockSub (blkCloseNamedTxt n ++ s) = none := rfl

theorem mBlock_named_none {n b : List Char} (hn : n ≠ [])
    (hw : ∀ c ∈ n, isWordC c = true) (hb : '{' ∉ b) :
    mBlock (blkNamedTxt n b) = none := by
  unfold mBlock
  have e : blkNamedTxt n b = blkOpenTxt n ++ (b ++ blkCloseNamedTxt n) := by
    simp [blkNamedTxt]
  rw [e, mBlockOpen_at _ hn hw]
  show (match scanBlockClose (b ++ blkCloseNamedTxt n) with
        | none => none
        | some (body, rest) => some ((n, body), rest)) = none
  rw [scanBlockClose_named hb hn hw]

theorem extract_blocks_named {n b : List Char} (hn : n ≠ [])
    (hw : ∀ c ∈ n, isWordC c = true) (hb : '{' ∉ b) :
    extract_blocks (blkNamedTxt n b) = [] := by
  unfold extract_blocks
  have h0 := mBlock_named_none hn hw hb
  have e2 : blkNamedTxt n b =
      '{' :: ('%' :: ' ' :: 'b' :: 'l' :: 'o' :: 'c' :: 'k' :: ' ' ::
        (n ++ (' ' :: '%' :: '}' :: (b ++ blkCloseNamedTxt n)))) := by
    simp [blkNamedTxt, blkOpenTxt, blkCloseNamedTxt, kwBlock, kwEndblock]
  rw [e2] at h0 ⊢
  rw [reFind_cons_of_none h0]
  have e3 : '%' :: ' ' :: 'b' :: 'l' :: 'o' :: 'c' :: 'k' :: ' ' ::
      (n ++ (' ' :: '%' :: '}' :: (b ++ blkCloseNamedTxt n))) =
      ('%' :: ' ' :: 'b' :: 'l' :: 'o' :: 'c' :: 'k' :: ' ' ::
        (n ++ (' ' :: '%' :: '}' :: b))) ++ blkCloseNamedTxt n := by
    simp
  have hP : '{' ∉ '%' :: ' ' :: 'b' :: 'l' :: 'o' :: 'c' :: 'k' :: ' ' ::
      (n ++ (' ' :: '%' :: '}' :: b)) := by
    intro hmem
    simp only [List.mem_cons, List.mem_append] at hmem
    rcases hmem with h | h | h | h | h | h | h | h | h
    · exact absurd h (by decide)
    · exact absurd h (by decide)
    · exact absurd h (by decide)
    · exact absurd h (by decide)
    · exact absurd h (by decide)
    · exact absurd h (by decide)
    · exact absurd h (by decide)
    · exact absurd h (by decide)
    · rcases h with h | h
      · exact absurd (hw '{' h) (by decide)
      · rcases h with h | h | h | h
        · exact absurd h (by decide)
        · exact absurd h (by decide)
        · exact absurd h (by decide)
        · exact hb h
  rw [e3, reFind_append_of_skip (fun c t hc => mBlock_head hc) _ hP]
  have h1 : mBlock (blkCloseNamedTxt n) = none := by
    have := mBlock_endblock n []
    rwa [List.append_nil] at this
  have e4 : blkCloseNamedTxt n =
      '{' :: ('%' :: ' ' :: 'e' :: 'n' :: 'd' :: 'b' :: 'l' :: 'o' :: 'c' :: 'k' :: ' ' ::
        (n ++ [' ', '%', '}'])) := by
    simp [blkCloseNamedTxt, kwEndblock]
  rw [e4] at h1 ⊢
  rw [reFind_cons_of_none h1]
  apply reFind_eq_nil_of_skip (fun c t hc => mBlock_head hc)
  intro hmem
  simp only [List.mem_cons, List.mem_append] at hmem
  rcases hmem with h | h | h | h | h | h | h | h | h | h | h | h
  all_goals first
    | exact absurd h (by decide)
    | (rcases h with h | h
       · exact absurd (hw '{' h) (by decide)
       · exact absurd h (by decide))

theorem sub_blocks_named {n b : List Char} (bm : List (List Char × List Char))
    (hn : n ≠ []) (hw : ∀ c ∈ n, isWordC c = true) (hb : '{' ∉ b) :
    sub_blocks bm (blkNamedTxt n b) = blkNamedTxt n b := by
  unfold sub_blocks
  have h0 := mBlockSub_named_none hn hw hb
  have e2 : blkNamedTxt n b =
      '{' :: ('%' :: ' ' :: 'b' :: 'l' :: 'o' :: 'c' :: 'k' :: ' ' ::
        (n ++ (' ' :: '%' :: '}' :: (b ++ blkCloseNamedTxt n)))) := by
    simp [blkNamedTxt, blkOpenTxt, blkCloseNamedTxt, kwBlock, kwEndblock]
  rw [e2] at h0 ⊢
  rw [reSubP_cons_of_none _ h0]
  have e3 : '%' :: ' ' :: 'b' :: 'l' :: 'o' :: 'c' :: 'k' :: ' ' ::
      (n ++ (' ' :: '%' :: '}' :: (b ++ blkCloseNamedTxt n))) =
      ('%' :: ' ' :: 'b' :: 'l' :: 'o' :: 'c' :: 'k' :: ' ' ::
        (n ++ (' ' :: '%' :: '}' :: b))) ++ blkCloseNamedTxt n := by
    simp
  have hP : '{' ∉ '%' :: ' ' :: 'b' :: 'l' :: 'o' :: 'c' :: 'k' :: ' ' ::
      (n ++ (' ' :: '%' :: '}' :: b)) := by
    intro hmem
    simp only [List.mem_cons, List.mem_append] at hmem
    rcases hmem with h | h | h | h | h | h | h | h | h
    · exact absurd h (by decide)
    · exact absurd h (by decide)
    · exact absurd h (by decide)
    · exact absurd h (by decide)
    · exact absurd h (by decide)
    · exact absurd h (by decide)
    · exact absurd h (by decide)
    · exact absurd h (by decide)
    · rcases h with h | h
      · exact absurd (hw '{' h) (by decide)
      · rcases h with h | h | h | h
        · exact absurd h (by decide)
        · exact absurd h (by decide)
        · exact absurd h (by decide)
        · exact hb h
  rw [e3, reSubP_append_of_skip _ (fun c t hc => mBlockSub_head hc) _ hP]
  have h1 : mBlockSub (blkCloseNamedTxt n) = none := by
    have := mBlockSub_endblock n []
    rwa [List.append_nil] at this
  have e4 : blkCloseNamedTxt n =
      '{' :: ('%' :: ' ' :: 'e' :: 'n' :: 'd' :: 'b' :: 'l' :: 'o' :: 'c' :: 'k' :: ' ' ::
        (n ++ [' ', '%', '}'])) := by
    simp [blkCloseNamedTxt, kwEndblock]
  rw [e4] at h1 ⊢
  rw [reSubP_cons_of_none _ h1]
  rw [reSubP_eq_self_of_skip _ (fun c t hc => mBlockSub_head hc) ?hrest]
  case hrest =>
    intro hmem
    simp only [List.mem_cons, List.mem_append] at hmem
    rcases hmem with h | h | h | h | h | h | h | h | h | h | h | h
    all_goals first
      | exact absurd h (by decide)
      | (rcases h with h | h
         · exact absurd (hw '{' h) (by decide)
         · exact absurd h (by decide))

/-! ## Tag stripping on texts without delimiters -/

theorem head_prefix_false {t : List Char} {c : Char} (hc : c ≠ '{') (p : List Char) :
    ('{' :: p).isPrefixOf (c :: t) = false := by
  rw [List.isPrefixOf_cons₂]
  have hb : ('{' == c) = false := by
    simp only [beq_eq_false_iff_ne, ne_eq]
    exact fun e => hc e.symm
  rw [hb, Bool.false_and]

theorem strip_directives_eq_self {s : List Char}
    (h : containsSub ['{', '%'] s = false) : strip_directives s = s := by
  unfold strip_directives
  apply reSubP_eq_self_of_none
  intro c t hsfx
  by_cases hc : c = '{'
  · subst hc
    cases t with
    | nil => rfl
    | cons c' t' =>
      by_cases hc' : c' = '%'
      · subst hc'
        have habs : containsSub ['{', '%'] s = true := by
          apply containsSub_of_suffix hsfx
          rw [List.isPrefixOf_cons₂, List.isPrefixOf_cons₂]
          simp
        rw [habs] at h
        cases h
      · exact mDirStrip_second hc'
  · exact mDirStrip_head hc

theorem strip_variables_eq_self {s : List Char}
    (h : containsSub ['{', '{'] s = false) : strip_variables s = s := by
  unfold strip_variables
  apply reSubP_eq_self_of_none
  intro c t hsfx
  by_cases hc : c = '{'
  · subst hc
    cases t with
    | nil => rfl
    | cons c' t' =>
      by_cases hc' : c' = '{'
      · subst hc'
        have habs : containsSub ['{', '{'] s = true := by
          apply containsSub_of_suffix hsfx
          rw [List.isPrefixOf_cons₂, List.isPrefixOf_cons₂]
          simp
        rw [habs] at h
        cases h
      · exact mVarStrip_second hc'
  · exact mVarStrip_head hc

/-! ## str.replace passes that leave the text unchanged -/

theorem reSubP_mLit_skip_span {p' rep pre R post : List Char}
    (hpre : '{' ∉ pre) (hR : '{' ∉ R) (hpost : '{' ∉ post) (hRne : R ≠ [])
    (hfail : ('{' :: '{' :: p').isPrefixOf ('{' :: '{' :: (R ++ post)) = false) :
    reSubP (mLit ('{' :: '{' :: p') rep) id (pre ++ ('{' :: '{' :: (R ++ post))) =
      pre ++ ('{' :: '{' :: (R ++ post)) := by
  rw [reSubP_append_of_skip _
    (fun c t hc => mLit_no_match (head_prefix_false hc _)) _ hpre]
  rw [reSubP_cons_of_none _ (mLit_no_match hfail)]
  cases R with
  | nil => cases hRne rfl
  | cons r₀ R' =>
    have hr₀ : r₀ ≠ '{' := fun e => hR (e ▸ List.mem_cons_self r₀ R')
    rw [List.cons_append,
      reSubP_cons_of_none _ (mLit_no_match (brace2_prefix_false hr₀ _ _))]
    rw [reSubP_eq_self_of_skip _
      (fun c t hc => mLit_no_match (head_prefix_false hc _))
      (by
        intro hmem
        rcases List.mem_cons.mp hmem with hm | hm
        · exact hr₀ hm.symm
        · rcases List.mem_append.mp hm with hm | hm
          · exact hR (List.mem_cons_of_mem _ hm)
          · exact hpost hm)]

theorem pyReplace_skip_span {p' rep pre R post : List Char}
    (hpre : '{' ∉ pre) (hR : '{' ∉ R) (hpost : '{' ∉ post) (hRne : R ≠ [])
    (hfail : ('{' :: '{' :: p').isPrefixOf ('{' :: '{' :: (R ++ post)) = false) :
    pyReplace ('{' :: '{' :: p') rep (pre ++ ('{' :: '{' :: (R ++ post))) =
      pre ++ ('{' :: '{' :: (R ++ post)) :=
  reSubP_mLit_skip_span hpre hR hpost hRne hfail

theorem pyReplace_no_brace {pat rep s : List Char} (hpat : '{' ∉ s)
    (hp : ∃ q, pat = '{' :: q) : pyReplace pat rep s = s := by
  obtain ⟨q, hq⟩ := hp
  subst hq
  exact reSubP_eq_self_of_skip _
    (fun c t hc => mLit_no_match (head_prefix_false hc _)) hpat

theorem replace_vars_eq_self {ctx : List (List Char × List Char)} {t : List Char}
    (h : ∀ kv ∈ ctx, pyReplace (spacedVar kv.1) kv.2 t = t ∧
      pyReplace (unspacedVar kv.1) kv.2 t = t) :
    replace_vars ctx t = t := by
  induction ctx with
  | nil => rfl
  | cons kv ctx ih =>
    unfold replace_vars at ih ⊢
    rw [List.foldl_cons]
    obtain ⟨h1, h2⟩ := h kv (List.mem_cons_self kv ctx)
    rw [h1, h2]
    exact ih (fun kv' hm => h kv' (List.mem_cons_of_mem _ hm))

/-! ## The placeholder patterns fail against foreign spans -/

theorem spaced_at_dflt_false {k idn : List Char} (lit post : List Char)
    (hk : ' ' ∉ k) (hw : ∀ c ∈ idn, isWordC c = true) :
    (spacedVar k).isPrefixOf (dfltTxt idn lit ++ post) = false := by
  have e1 : spacedVar k = '{' :: '{' :: ' ' :: (k ++ (' ' :: '}' :: '}' :: [])) := by
    simp [spacedVar]
  have e2 : dfltTxt idn lit ++ post =
      '{' :: '{' :: ' ' ::
        (idn ++ (' ' :: ('|' :: ' ' ::
          (kwDefaultVal ++ (lit ++ ('"' :: ')' :: ' ' :: '}' :: '}' :: post)))))) := by
    simp [dfltTxt]
  rw [e1, e2, List.isPrefixOf_cons₂, List.isPrefixOf_cons₂, List.isPrefixOf_cons₂]
  rw [key_prefix_false k idn hk hw _ _ (fun _ => by
    rw [List.isPrefixOf_cons₂]
    simp)]
  simp

theorem unspaced_at_space_false {k : List Char} (X : List Char) (hk : ' ' ∉ k) :
    (unspacedVar k).isPrefixOf ('{' :: '{' :: ' ' :: X) = false := by
  have e1 : unspacedVar k = '{' :: '{' :: (k ++ ('}' :: '}' :: [])) := by
    simp [unspacedVar]
  rw [e1, List.isPrefixOf_cons₂, List.isPrefixOf_cons₂]
  rw [append_prefix_space_false hk]
  simp

theorem spaced_at_spaced_false {k w : List Char} (r : List Char)
    (hk : ' ' ∉ k) (hw : ∀ c ∈ w, isWordC c = true) (hne : k ≠ w) :
    (spacedVar k).isPrefixOf (spacedVar w ++ r) = false := by
  have e1 : spacedVar k = '{' :: '{' :: ' ' :: (k ++ (' ' :: '}' :: '}' :: [])) := by
    simp [spacedVar]
  have e2 : spacedVar w ++ r = '{' :: '{' :: ' ' :: (w ++ (' ' :: ('}' :: '}' :: r))) := by
    simp [spacedVar]
  rw [e1, e2, List.isPrefixOf_cons₂, List.isPrefixOf_cons₂, List.isPrefixOf_cons₂]
  rw [key_prefix_false k w hk hw _ _ (fun he => absurd he hne)]
  simp

/-! ## The Tag Stripper over structured inputs -/

theorem strip_directives_structured :
    ∀ ps : List SPart, (∀ p ∈ ps, p.Ok) →
      strip_directives (flattenS ps) =
        flattenS (ps.filter (fun p => !p.isDir)) := by
  intro ps
  induction ps with
  | nil => intro _; rfl
  | cons p ps ih =>
    intro h
    have hp := h p (List.mem_cons_self p ps)
    have hps := fun q hq => h q (List.mem_cons_of_mem _ hq)
    have ihe := ih hps
    unfold strip_directives at ihe ⊢
    cases p with
    | lit s =>
      show reSubP mDirStrip id (s ++ flattenS ps) = flattenS (List.filter _ (SPart.lit s :: ps))
      rw [reSubP_append_of_skip _ (fun c t hc => mDirStrip_head hc) _ hp, ihe]
      rfl
    | dir b =>
      obtain ⟨hb1, hb2, hb3, hb4⟩ := hp
      show reSubP mDirStrip id ((['{', '%'] ++ b ++ ['%', '}']) ++ flattenS ps) =
        flattenS (List.filter _ (SPart.dir b :: ps))
      have e : (['{', '%'] ++ b ++ ['%', '}']) ++ flattenS ps =
          '{' :: '%' :: (b ++ ('%' :: '}' :: flattenS ps)) := by
        simp
      rw [e, reSubP_cons_of_match _ (mDirStrip_at _ hb3 hb4)
        (by simp [List.length_append]; omega), ihe]
      rfl
    | var b =>
      obtain ⟨hb1, hb2, hb3, hb4⟩ := hp
      show reSubP mDirStrip id ((['{', '{'] ++ b ++ ['}', '}']) ++ flattenS ps) =
        flattenS (List.filter _ (SPart.var b :: ps))
      have e : (['{', '{'] ++ b ++ ['}', '}']) ++ flattenS ps =
          '{' :: '{' :: (b ++ ('}' :: '}' :: flattenS ps)) := by
        simp
      rw [e, reSubP_cons_of_none _ (mDirStrip_second (by decide))]
      cases b with
      | nil =>
        simp only [List.nil_append]
        rw [reSubP_cons_of_none _ (mDirStrip_second (by decide))]
        have e2 : ('}' : Char) :: '}' :: flattenS ps = ['}', '}'] ++ flattenS ps := rfl
        rw [e2, reSubP_append_of_skip _ (fun c t hc => mDirStrip_head hc) _ (by decide), ihe]
        rfl
      | cons b₀ b' =>
        have hb₀ : b₀ ≠ '%' := fun e => hb3 (e ▸ List.mem_cons_self b₀ b')
        rw [List.cons_append, reSubP_cons_of_none _ (mDirStrip_second hb₀)]
        have e2 : b₀ :: (b' ++ ('}' :: '}' :: flattenS ps)) =
            (b₀ :: (b' ++ ['}', '}'])) ++ flattenS ps := by
          simp
        have hP : '{' ∉ b₀ :: (b' ++ ['}', '}']) := by
          intro hmem
          rcases List.mem_cons.mp hmem with hm | hm
          · exact hb1 (hm ▸ List.mem_cons_self b₀ b')
          · rcases List.mem_append.mp hm with hm | hm
            · exact hb1 (List.mem_cons_of_mem _ hm)
            · rcases List.mem_cons.mp hm with hm | hm
              · exact absurd hm (by decide)
              · rcases List.mem_cons.mp hm with hm | hm
                · exact absurd hm (by decide)
                · cases hm
        rw [e2, reSubP_append_of_skip _ (fun c t hc => mDirStrip_head hc) _ hP, ihe]
        simp [flattenS, SPart.isDir, SPart.text]

theorem strip_variables_structured :
    ∀ ps : List SPart, (∀ p ∈ ps, p.Ok ∧ p.isDir = false) →
      strip_variables (flattenS ps) =
        flattenS (ps.filter SPart.isLit) := by
  intro ps
  induction ps with
  | nil => intro _; rfl
  | cons p ps ih =>
    intro h
    have hp := (h p (List.mem_cons_self p ps)).1
    have hpd := (h p (List.mem_cons_self p ps)).2
    have hps := fun q hq => h q (List.mem_cons_of_mem _ hq)
    have ihe := ih hps
    unfold strip_variables at ihe ⊢
    cases p with
    | lit s =>
      show reSubP mVarStrip id (s ++ flattenS ps) = flattenS (List.filter _ (SPart.lit s :: ps))
      rw [reSubP_append_of_skip _ (fun c t hc => mVarStrip_head hc) _ hp, ihe]
      rfl
    | dir b => cases hpd
    | var b =>
      obtain ⟨hb1, hb2, hb3, hb4⟩ := hp
      show reSubP mVarStrip id ((['{', '{'] ++ b ++ ['}', '}']) ++ flattenS ps) =
        flattenS (List.filter _ (SPart.var b :: ps))
      have e : (['{', '{'] ++ b ++ ['}', '}']) ++ flattenS ps =
          '{' :: '{' :: (b ++ ('}' :: '}' :: flattenS ps)) := by
        simp
      rw [e, reSubP_cons_of_match _ (mVarStrip_at _ hb2 hb4)
        (by simp [List.length_append]; omega), ihe]
      rfl

theorem flattenS_lits_no_brace :
    ∀ qs : List SPart, (∀ p ∈ qs, p.Ok) → (∀ p ∈ qs, p.isLit = true) →
      '{' ∉ flattenS qs := by
  intro qs
  induction qs with
  | nil => intro _ _ hmem; cases hmem
  | cons p ps ih =>
    intro hok hlit hmem
    have hp := hok p (List.mem_cons_self p ps)
    have hl := hlit p (List.mem_cons_self p ps)
    cases p with
    | lit s =>
      rcases List.mem_append.mp hmem with hm | hm
      · exact hp hm
      · exact ih (fun q hq => hok q (List.mem_cons_of_mem _ hq))
          (fun q hq => hlit q (List.mem_cons_of_mem _ hq)) hm
    | dir b => cases hl
    | var b => cases hl

/-! ## No block syntax in well-formed resolver output -/

theorem renderT_no_brace {bm : List (List Char × List Char)} {ps : List TPart}
    (hok : ∀ p ∈ ps, p.Ok) (hbm : ∀ kv ∈ bm, '{' ∉ kv.2) : '{' ∉ renderT bm ps := by
  induction ps with
  | nil => intro hmem; cases hmem
  | cons p ps ih =>
    intro hmem
    have hp := hok p (List.mem_cons_self p ps)
    rcases List.mem_append.mp hmem with hm | hm
    · cases p with
      | lit s => exact hp hm
      | blk n b =>
        have e : (TPart.blk n b).render bm =
            match lookupLast bm n with
            | some v => v
            | none => [] := rfl
        rw [e] at hm
        cases hx : lookupLast bm n with
        | some v =>
          simp only [hx] at hm
          obtain ⟨k, hk⟩ := lookupLast_mem hx
          exact hbm (k, v) hk hm
        | none =>
          simp only [hx] at hm
          cases hm
    · exact ih (fun q hq => hok q (List.mem_cons_of_mem _ hq)) hm

theorem containsBlockTag_no_brace {s : List Char} (hs : '{' ∉ s) :
    containsBlockTag s = false := by
  unfold containsBlockTag
  rw [existsMatchB_false (fun c t hc => mBlockOpen_head hc) mBlockOpen_nil hs,
    existsMatchB_false (fun c t hc => mBlockClose_head hc) mBlockClose_nil hs]
  rfl

/-! ## The default-filter stage over a canonical placeholder -/

theorem replace_defaults_at {pre idn lit post : List Char}
    (hpre : '{' ∉ pre) (hpost : '{' ∉ post) (hn : idn ≠ [])
    (hw : ∀ c ∈ idn, isWordC c = true) (hl : lit ≠ []) (hq : '"' ∉ lit) :
    replace_defaults (pre ++ (dfltTxt idn lit ++ post)) = pre ++ (lit ++ post) := by
  unfold replace_defaults
  rw [reSubP_append_of_skip _ (fun c t hc => mDefault_head hc) _ hpre]
  rw [reSubP_append_of_match _ (mDefault_at post hn hw hl hq) (by simp [dfltTxt])]
  rw [reSubP_eq_self_of_skip _ (fun c t hc => mDefault_head hc) hpost]
  rfl

theorem dflt_tail_no_brace {idn lit : List Char} (hw : ∀ c ∈ idn, isWordC c = true)
    (hlit : '{' ∉ lit) :
    '{' ∉ ' ' :: (idn ++ (' ' :: '|' :: ' ' ::
      (kwDefaultVal ++ (lit ++ ['"', ')', ' ', '}', '}'])))) := by
  intro hmem
  rcases List.mem_cons.mp hmem with h | h
  · exact absurd h (by decide)
  rcases List.mem_append.mp h with h | h
  · exact absurd (hw '{' h) (by decide)
  rcases List.mem_cons.mp h with h | h
  · exact absurd h (by decide)
  rcases List.mem_cons.mp h with h | h
  · exact absurd h (by decide)
  rcases List.mem_cons.mp h with h | h
  · exact absurd h (by decide)
  rcases List.mem_append.mp h with h | h
  · exact absurd h (by decide)
  rcases List.mem_append.mp h with h | h
  · exact hlit h
  · exact absurd h (by decide)

theorem replace_vars_skips_dflt {ctx : List (List Char × List Char)}
    {pre idn lit post : List Char} (hctx : ∀ kv ∈ ctx, ' ' ∉ kv.1)
    (hpre : '{' ∉ pre) (hpost : '{' ∉ post)
    (hw : ∀ c ∈ idn, isWordC c = true) (hlit : '{' ∉ lit) :
    replace_vars ctx (pre ++ (dfltTxt idn lit ++ post)) =
      pre ++ (dfltTxt idn lit ++ post) := by
  have e₂ : dfltTxt idn lit ++ post =
      '{' :: '{' :: ((' ' :: (idn ++ (' ' :: '|' :: ' ' ::
        (kwDefaultVal ++ (lit ++ ['"', ')', ' ', '}', '}']))))) ++ post) := by
    simp [dfltTxt]
  have hR := dflt_tail_no_brace hw hlit
  have hRne : (' ' :: (idn ++ (' ' :: '|' :: ' ' ::
      (kwDefaultVal ++ (lit ++ ['"', ')', ' ', '}', '}']))))) ≠ ([] : List Char) := by
    simp
  apply replace_vars_eq_self
  intro kv hkv
  have hk := hctx kv hkv
  constructor
  · have hf := spaced_at_dflt_false lit post hk hw
    have e₁ : spacedVar kv.1 = '{' :: '{' :: (' ' :: (kv.1 ++ [' ', '}', '}'])) := by
      simp [spacedVar]
    rw [e₁, e₂] at hf
    rw [e₂, e₁]
    exact pyReplace_skip_span hpre hR hpost hRne hf
  · have hf := unspaced_at_space_false
      (idn ++ (' ' :: '|' :: ' ' ::
        (kwDefaultVal ++ (lit ++ (['"', ')', ' ', '}', '}'] ++ post))))) hk
    have e₁ : unspacedVar kv.1 = '{' :: '{' :: (kv.1 ++ ('}' :: '}' :: [])) := by
      simp [unspacedVar]
    have e₃ : ('{' : Char) :: '{' :: ' ' :: (idn ++ (' ' :: '|' :: ' ' ::
        (kwDefaultVal ++ (lit ++ (['"', ')', ' ', '}', '}'] ++ post))))) =
        '{' :: '{' :: ((' ' :: (idn ++ (' ' :: '|' :: ' ' ::
          (kwDefaultVal ++ (lit ++ ['"', ')', ' ', '}', '}']))))) ++ post) := by
      simp
    rw [e₁, e₃] at hf
    rw [e₂, e₁]
    exact pyReplace_skip_span hpre hR hpost hRne hf

/-! ## Stepping the scans across a spaced placeholder span -/

theorem spacedVar_cons (k : List Char) :
    spacedVar k = '{' :: '{' :: ' ' :: (k ++ [' ', '}', '}']) := by
  simp [spacedVar]

theorem unspacedVar_cons (k : List Char) :
    unspacedVar k = '{' :: '{' :: (k ++ ('}' :: '}' :: [])) := by
  simp [unspacedVar]

theorem mLit_spaced_head {k v : List Char} {c : Char} {t : List Char} (hc : c ≠ '{') :
    mLit (spacedVar k) v (c :: t) = none := by
  rw [spacedVar_cons]
  exact mLit_no_match (head_prefix_false hc _)

theorem mLit_unspaced_head {k v : List Char} {c : Char} {t : List Char} (hc : c ≠ '{') :
    mLit (unspacedVar k) v (c :: t) = none := by
  rw [unspacedVar_cons]
  exact mLit_no_match (head_prefix_false hc _)

theorem pyReplace_spaced_hit {k v p q : List Char} (hp : '{' ∉ p) (hq : '{' ∉ q) :
    pyReplace (spacedVar k) v (p ++ (spacedVar k ++ q)) = p ++ (v ++ q) := by
  unfold pyReplace
  rw [reSubP_append_of_skip _ (fun c t hc => mLit_spaced_head hc) _ hp]
  rw [reSubP_append_of_match _ (mLit_self _ _ _) (by simp [spacedVar])]
  rw [reSubP_eq_self_of_skip _ (fun c t hc => mLit_spaced_head hc) hq]
  rfl

theorem reSubP_mLit_step_spacedVar {pat rep w Y : List Char}
    (hw : ∀ c ∈ w, isWordC c = true)
    (hfail : pat.isPrefixOf (spacedVar w ++ Y) = false)
    (hpat : ∃ p', pat = '{' :: '{' :: p') :
    reSubP (mLit pat rep) id (spacedVar w ++ Y) =
      spacedVar w ++ reSubP (mLit pat rep) id Y := by
  obtain ⟨p', hp⟩ := hpat
  have e : spacedVar w ++ Y = '{' :: '{' :: ' ' :: (w ++ (' ' :: '}' :: '}' :: Y)) := by
    simp [spacedVar]
  rw [e] at hfail ⊢
  rw [reSubP_cons_of_none _ (mLit_no_match hfail)]
  rw [reSubP_cons_of_none _ (by
    rw [hp]
    exact mLit_no_match (brace2_prefix_false (by decide) _ _))]
  have e2 : ' ' :: (w ++ (' ' :: '}' :: '}' :: Y)) = (' ' :: (w ++ [' ', '}', '}'])) ++ Y := by
    simp
  have hP : '{' ∉ ' ' :: (w ++ [' ', '}', '}']) := by
    intro hmem
    rcases List.mem_cons.mp hmem with h | h
    · exact absurd h (by decide)
    rcases List.mem_append.mp h with h | h
    · exact absurd (hw '{' h) (by decide)
    · rcases List.mem_cons.mp h with h | h
      · exact absurd h (by decide)
      rcases List.mem_cons.mp h with h | h
      · exact absurd h (by decide)
      rcases List.mem_cons.mp h with h | h
      · exact absurd h (by decide)
      · cases h
  rw [e2, reSubP_append_of_skip _ (fun c t hc => by
    rw [hp]
    exact mLit_no_match (head_prefix_false hc _)) _ hP]
  simp [spacedVar]

theorem reSubP_mDefault_step_spacedVar {w Y : List Char} (hwne : w ≠ [])
    (hw : ∀ c ∈ w, isWordC c = true) :
    reSubP mDefault id (spacedVar w ++ Y) = spacedVar w ++ reSubP mDefault id Y := by
  have e : spacedVar w ++ Y = '{' :: '{' :: ' ' :: (w ++ (' ' :: '}' :: '}' :: Y)) := by
    simp [spacedVar]
  have h0 := mDefault_at_spacedVar Y hwne hw
  rw [e] at h0
  rw [e, reSubP_cons_of_none _ h0]
  rw [reSubP_cons_of_none _ (mDefault_second (by decide))]
  have e2 : ' ' :: (w ++ (' ' :: '}' :: '}' :: Y)) = (' ' :: (w ++ [' ', '}', '}'])) ++ Y := by
    simp
  have hP : '{' ∉ ' ' :: (w ++ [' ', '}', '}']) := by
    intro hmem
    rcases List.mem_cons.mp hmem with h | h
    · exact absurd h (by decide)
    rcases List.mem_append.mp h with h | h
    · exact absurd (hw '{' h) (by decide)
    · rcases List.mem_cons.mp h with h | h
      · exact absurd h (by decide)
      rcases List.mem_cons.mp h with h | h
      · exact absurd h (by decide)
      rcases List.mem_cons.mp h with h | h
      · exact absurd h (by decide)
      · cases h
  rw [e2, reSubP_append_of_skip _ (fun c t hc => mDefault_head hc) _ hP]
  simp [spacedVar]

theorem reSubP_mDirStrip_step_spacedVar {w Y : List Char}
    (hw : ∀ c ∈ w, isWordC c = true) :
    reSubP mDirStrip id (spacedVar w ++ Y) = spacedVar w ++ reSubP mDirStrip id Y := by
  have e : spacedVar w ++ Y = '{' :: '{' :: ' ' :: (w ++ (' ' :: '}' :: '}' :: Y)) := by
    simp [spacedVar]
  rw [e, reSubP_cons_of_none _ (mDirStrip_second (by decide))]
  rw [reSubP_cons_of_none _ (mDirStrip_second (by decide))]
  have e2 : ' ' :: (w ++ (' ' :: '}' :: '}' :: Y)) = (' ' :: (w ++ [' ', '}', '}'])) ++ Y := by
    simp
  have hP : '{' ∉ ' ' :: (w ++ [' ', '}', '}']) := by
    intro hmem
    rcases List.mem_cons.mp hmem with h | h
    · exact absurd h (by decide)
    rcases List.mem_append.mp h with h | h
    · exact absurd (hw '{' h) (by decide)
    · rcases List.mem_cons.mp h with h | h
      · exact absurd h (by decide)
      rcases List.mem_cons.mp h with h | h
      · exact absurd h (by decide)
      rcases List.mem_cons.mp h with h | h
      · exact absurd h (by decide)
      · cases h
  rw [e2, reSubP_append_of_skip _ (fun c t hc => mDirStrip_head hc) _ hP]
  simp [spacedVar]

theorem reSubP_mVarStrip_remove_spacedVar {w Y : List Char}
    (hw : ∀ c ∈ w, isWordC c = true) :
    reSubP mVarStrip id (spacedVar w ++ Y) = reSubP mVarStrip id Y := by
  have e : spacedVar w ++ Y = '{' :: '{' :: ((' ' :: (w ++ [' '])) ++ ('}' :: '}' :: Y)) := by
    simp [spacedVar]
  have hb : '}' ∉ ' ' :: (w ++ [' ']) := by
    intro hmem
    rcases List.mem_cons.mp hmem with h | h
    · exact absurd h (by decide)
    rcases List.mem_append.mp h with h | h
    · exact absurd (hw '}' h) (by decide)
    · rcases List.mem_cons.mp h with h | h
      · exact absurd h (by decide)
      · cases h
  have hn : '\n' ∉ ' ' :: (w ++ [' ']) := by
    intro hmem
    rcases List.mem_cons.mp hmem with h | h
    · exact absurd h (by decide)
    rcases List.mem_append.mp h with h | h
    · exact absurd (hw '\n' h) (by decide)
    · rcases List.mem_cons.mp h with h | h
      · exact absurd h (by decide)
      · cases h
  rw [e, reSubP_cons_of_match _ (mVarStrip_at _ hb hn)
    (by simp [List.length_append]; omega)]
  rfl

/-! ## The claims -/

/-- C4: render_template(path, context) is absent exactly when the top-level
template cannot be fetched; whenever the top-level template is available the
result is a text document, and a missing base, missing include target or
unresolved variable never surfaces as an error or absence (every stage of the
pipeline is a total text-to-text function, so the only absence is the
top-level one). -/
theorem C4_top_level_absence (fetch : Provider) (path : List Char)
    (ctx : List (List Char × List Char)) :
    render_template fetch path ctx = none ↔ fetch path = none := by
  unfold render_template
  cases h : fetch path <;> simp

/-- C9: when the child declares extends but the provider cannot fetch the
referenced base, rendering proceeds exactly as if no extends directive
existed: the result is the post-inheritance pipeline applied to the child's
own text (render_rest), which is also precisely what any template without an
extends directive renders to, and no absence or error reaches the caller. -/
theorem C9_missing_base_fallback (fetch : Provider)
    (ctx : List (List Char × List Char)) (path child bp : List Char)
    (hc : fetch path = some child) (hext : findExtends child = some bp)
    (hmiss : fetch bp = none) :
    render_template fetch path ctx = some (render_rest fetch ctx child) ∧
    (∀ q d, fetch q = some d → findExtends d = none →
      render_template fetch q ctx = some (render_rest fetch ctx d)) := by
  constructor
  · unfold render_template handle_extends
    simp only [hc, hext, hmiss]
  · intro q d hq hne
    unfold render_template handle_extends
    simp only [hq, hne]

/-- C9 witness: a concrete child extending an unavailable base renders via
the fallback path, and the extends directive is later stripped, leaving the
child's own literal text. -/
theorem C9_missing_base_fallback_witness :
    fetchC9w ("child".data) = some childC9w ∧
    findExtends childC9w = some ("base".data) ∧
    fetchC9w ("base".data) = none ∧
    render_template fetchC9w ("child".data) [] = some (render_rest fetchC9w [] childC9w) ∧
    render_template fetchC9w ("child".data) [] = some ("Hello".data) :=
  ⟨by decide, by decide, by decide,
   (C9_missing_base_fallback fetchC9w [] ("child".data) childC9w ("base".data)
     (by decide) (by decide) (by decide)).1,
   by decide⟩

/-- C1 counterexample: the claim says the base's own authored block body
never appears in the resolver's output, for every available base.  But the
substitution pass compiles its pattern without the DOTALL flag, so a base
block whose authored body spans a newline is not matched: the child extracts
block t with body X, yet the resolver returns the base verbatim, the base's
authored body L1-newline-L2 appears in the output, and the child's X does
not. -/
theorem C1_block_override_counterexample :
    findExtends childC1ml = some ("base".data) ∧
    fetchC1ml ("base".data) = some baseC1ml ∧
    extract_blocks childC1ml = [("t".data, "X".data)] ∧
    handle_extends fetchC1ml childC1ml = baseC1ml ∧
    containsSub ("L1\nL2".data) (handle_extends fetchC1ml childC1ml) = true ∧
    containsSub ("X".data) (handle_extends fetchC1ml childC1ml) = false :=
  ⟨by decide, by decide, by decide, by decide, by decide, by decide⟩

/-- C1 amended: for a child that declares extends and whose base is
available and well formed for substitution (literal segments free of open
braces interleaved with block regions whose authored bodies are free of open
braces and of newlines), the inheritance resolver emits, for every block
region of the base, the child's extracted body for that name when the child
declares it and the empty string when it does not; renderT is by definition
that image, and it discards the base's own authored block body.  The
newline-freedom hypothesis is necessary: the substitution pass lacks the
DOTALL flag, so multi-line authored bodies survive verbatim (see the
counterexample). -/
theorem C1_block_override (fetch : Provider) (child bp : List Char)
    (ps : List TPart) (hext : findExtends child = some bp)
    (hbase : fetch bp = some (flattenT ps)) (hok : ∀ p ∈ ps, p.OkSub) :
    handle_extends fetch child = renderT (extract_blocks child) ps := by
  unfold handle_extends
  simp only [hext, hbase]
  exact sub_blocks_structured _ ps hok

/-- C1 witness: the spec's end-to-end scenario.  The base authors a Default
body for block title and declares an empty block body; the child overrides
only title.  The resolver output contains the child's Hello, an empty region
for body, and no trace of Default. -/
theorem C1_block_override_witness :
    findExtends childC1w = some ("base".data) ∧
    fetchC1w ("base".data) = some (flattenT baseC1parts) ∧
    (∀ p ∈ baseC1parts, p.OkSub) ∧
    handle_extends fetchC1w childC1w = renderT (extract_blocks childC1w) baseC1parts ∧
    renderT (extract_blocks childC1w) baseC1parts = "<h1>Hello</h1><p></p>".data :=
  ⟨by decide, by decide, by decide,
   C1_block_override fetchC1w childC1w ("base".data) baseC1parts
     (by decide) (by decide) (by decide),
   by decide⟩

/-- C7: when a child declares the same block name twice, the later match
overwrites the earlier one in the Block Map (lookupLast), so the second body
in source order is the one extracted last and the one substituted into the
base's block region.  The base's authored body d must be newline-free for
the substitution half, because the substitution pass lacks the DOTALL
flag. -/
theorem C7_duplicate_block_last_wins (n b₁ b₂ d s₀ s₁ s₂ t₀ t₁ : List Char)
    (hn : n ≠ []) (hw : ∀ c ∈ n, isWordC c = true)
    (hb₁ : '{' ∉ b₁) (hb₂ : '{' ∉ b₂) (hd : '{' ∉ d) (hdn : '\n' ∉ d)
    (hs₀ : '{' ∉ s₀) (hs₁ : '{' ∉ s₁) (hs₂ : '{' ∉ s₂)
    (ht₀ : '{' ∉ t₀) (ht₁ : '{' ∉ t₁) :
    extract_blocks (s₀ ++ (blkTxt n b₁ ++ (s₁ ++ (blkTxt n b₂ ++ s₂)))) =
      [(n, b₁), (n, b₂)] ∧
    sub_blocks (extract_blocks (s₀ ++ (blkTxt n b₁ ++ (s₁ ++ (blkTxt n b₂ ++ s₂)))))
      (t₀ ++ (blkTxt n d ++ t₁)) = t₀ ++ (b₂ ++ t₁) := by
  have hok : ∀ p ∈ [TPart.lit s₀, TPart.blk n b₁, TPart.lit s₁,
      TPart.blk n b₂, TPart.lit s₂], p.Ok := by
    intro p hp
    simp only [List.mem_cons, List.not_mem_nil, or_false] at hp
    rcases hp with rfl | rfl | rfl | rfl | rfl
    · exact hs₀
    · exact ⟨hn, hw, hb₁⟩
    · exact hs₁
    · exact ⟨hn, hw, hb₂⟩
    · exact hs₂
  have e : s₀ ++ (blkTxt n b₁ ++ (s₁ ++ (blkTxt n b₂ ++ s₂))) =
      flattenT [TPart.lit s₀, TPart.blk n b₁, TPart.lit s₁,
        TPart.blk n b₂, TPart.lit s₂] := by
    simp [flattenT, TPart.text]
  have hx : extract_blocks (s₀ ++ (blkTxt n b₁ ++ (s₁ ++ (blkTxt n b₂ ++ s₂)))) =
      [(n, b₁), (n, b₂)] := by
    rw [e, extract_blocks_structured _ hok]
    rfl
  refine ⟨hx, ?_⟩
  rw [hx]
  have hok2 : ∀ p ∈ [TPart.lit t₀, TPart.blk n d, TPart.lit t₁], p.OkSub := by
    intro p hp
    simp only [List.mem_cons, List.not_mem_nil, or_false] at hp
    rcases hp with rfl | rfl | rfl
    · exact ht₀
    · exact ⟨hn, hw, hd, hdn⟩
    · exact ht₁
  have e2 : t₀ ++ (blkTxt n d ++ t₁) =
      flattenT [TPart.lit t₀, TPart.blk n d, TPart.lit t₁] := by
    simp [flattenT, TPart.text]
  rw [e2, sub_blocks_structured _ _ hok2]
  show t₀ ++ (replace_block [(n, b₁), (n, b₂)] (n, []) ++ (t₁ ++ [])) =
    t₀ ++ (b₂ ++ t₁)
  have hl : replace_block [(n, b₁), (n, b₂)] (n, []) = b₂ := by
    unfold replace_block
    have : lookupLast [(n, b₁), (n, b₂)] n = some b₂ := by
      simp [lookupLast]
    rw [this]
  rw [hl, List.append_nil]

/-- C7 witness: a child declaring block X twice; the second body appears in
the substituted base. -/
theorem C7_duplicate_block_last_wins_witness :
    extract_blocks ("lead ".data ++ (blkTxt ("X".data) ("one".data) ++
      (" mid ".data ++ (blkTxt ("X".data) ("two".data) ++ " tail".data)))) =
      [("X".data, "one".data), ("X".data, "two".data)] ∧
    sub_blocks (extract_blocks ("lead ".data ++ (blkTxt ("X".data) ("one".data) ++
      (" mid ".data ++ (blkTxt ("X".data) ("two".data) ++ " tail".data)))))
      ("[".data ++ (blkTxt ("X".data) ("D".data) ++ "]".data)) =
      "[".data ++ ("two".data ++ "]".data) :=
  C7_duplicate_block_last_wins ("X".data) ("one".data) ("two".data) ("D".data)
    ("lead ".data) (" mid ".data) (" tail".data) ("[".data) ("]".data)
    (by decide) (by decide) (by decide) (by decide) (by decide) (by decide)
    (by decide) (by decide) (by decide) (by decide) (by decide)

/-- C2 counterexample: the claim quantifies over every base text, but block
directives of the base that the block pattern does not consume survive the
resolver verbatim.  With a base consisting of a stray bare endblock followed
by an unclosed block-open, the working text after inheritance resolution is
the base itself and still contains block-open and block-close directive
syntax originating from the base. -/
theorem C2_no_block_syntax_counterexample :
    findExtends childC2w = some ("base".data) ∧
    fetchC2w ("base".data) = some baseC2w ∧
    handle_extends fetchC2w childC2w = baseC2w ∧
    containsBlockTag (handle_extends fetchC2w childC2w) = true :=
  ⟨by decide, by decide, by decide, by decide⟩

/-- C2 amended: the substitution pass compiles its pattern without the
DOTALL flag, so it consumes exactly the block regions whose bodies lie on a
single line.  For a base in which all block directives occur as properly
matched open/close pairs whose authored bodies are free of open braces and
of newlines, and a Block Map whose bodies are free of open braces, the
resolver's working text contains no block-open or block-close directive
syntax at all.  Bases with unmatched directives (a stray endblock, an
unclosed open, or a close that repeats the block name) or with multi-line
authored block bodies retain that syntax. -/
theorem C2_no_block_syntax_amended (bm : List (List Char × List Char))
    (ps : List TPart) (hok : ∀ p ∈ ps, p.OkSub) (hbm : ∀ kv ∈ bm, '{' ∉ kv.2) :
    containsBlockTag (sub_blocks bm (flattenT ps)) = false := by
  rw [sub_blocks_structured bm ps hok]
  exact containsBlockTag_no_brace
    (renderT_no_brace (fun p hp => okSub_imp_ok p (hok p hp)) hbm)

/-- C2 amended witness: a two-block base with single-line bodies fully
substituted leaves no block syntax. -/
theorem C2_no_block_syntax_amended_witness :
    (∀ p ∈ baseC1parts, p.OkSub) ∧
    (∀ kv ∈ [("title".data, "Hello".data)], '{' ∉ kv.2) ∧
    containsBlockTag
      (sub_blocks [("title".data, "Hello".data)] (flattenT baseC1parts)) = false :=
  ⟨by decide, by decide,
   C2_no_block_syntax_amended [("title".data, "Hello".data)] baseC1parts
     (by decide) (by decide)⟩

/-- C6 counterexample: the close directive of block_pattern is the bare
endblock only; a close that repeats the block name is not recognised.  The
same block body closed with endblock t is not extracted from a child
(empty Block Map), and a base region closed with endblock t is not
substituted (the base text survives unchanged), while the bare-closed
variants are extracted and substituted. -/
theorem C6_endblock_name_counterexample :
    extract_blocks (blkNamedTxt ("t".data) ("X".data)) = [] ∧
    extract_blocks (blkTxt ("t".data) ("X".data)) = [("t".data, "X".data)] ∧
    sub_blocks [("t".data, "Y".data)] (blkNamedTxt ("t".data) ("X".data)) =
      blkNamedTxt ("t".data) ("X".data) ∧
    sub_blocks [("t".data, "Y".data)] (blkTxt ("t".data) ("X".data)) = "Y".data :=
  ⟨by decide, by decide, by decide, by decide⟩

/-- C6 amended: endblock must not repeat the block's name.  A block whose
only close repeats the name is not recognised by the pattern: it contributes
nothing to a child's Block Map, and in a base its region is left untouched
by the substitution; only the bare endblock closes a block, and with it the
block is extracted as usual. -/
theorem C6_endblock_name_amended (n b : List Char)
    (bm : List (List Char × List Char)) (hn : n ≠ [])
    (hw : ∀ c ∈ n, isWordC c = true) (hb : '{' ∉ b) :
    extract_blocks (blkNamedTxt n b) = [] ∧
    sub_blocks bm (blkNamedTxt n b) = blkNamedTxt n b ∧
    extract_blocks (blkTxt n b) = [(n, b)] := by
  refine ⟨extract_blocks_named hn hw hb, sub_blocks_named bm hn hw hb, ?_⟩
  have hok : ∀ p ∈ [TPart.blk n b], p.Ok := by
    intro p hp
    simp only [List.mem_cons, List.not_mem_nil, or_false] at hp
    subst hp
    exact ⟨hn, hw, hb⟩
  have e : blkTxt n b = flattenT [TPart.blk n b] := by
    simp [flattenT, TPart.text]
  rw [e, extract_blocks_structured _ hok]
  rfl

/-- C6 amended witness. -/
theorem C6_endblock_name_amended_witness :
    ("nav".data ≠ ([] : List Char)) ∧
    (∀ c ∈ "nav".data, isWordC c = true) ∧
    ('{' ∉ "<ul></ul>".data) ∧
    (extract_blocks (blkNamedTxt ("nav".data) ("<ul></ul>".data)) = [] ∧
      sub_blocks [] (blkNamedTxt ("nav".data) ("<ul></ul>".data)) =
        blkNamedTxt ("nav".data) ("<ul></ul>".data) ∧
      extract_blocks (blkTxt ("nav".data) ("<ul></ul>".data)) =
        [("nav".data, "<ul></ul>".data)]) :=
  ⟨by decide, by decide, by decide,
   C6_endblock_name_amended ("nav".data) ("<ul></ul>".data) []
     (by decide) (by decide) (by decide)⟩

/-- C8 counterexample: the Tag Stripper is not idempotent.  On the text
brace-percent-percent-doublebrace-a-doublebrace-close-brace the placeholder
pass removes its span and thereby makes the two stranded directive
delimiters adjacent; re-running the stripper then removes the newly formed
directive span, so the second run changes the first run's output. -/
theorem C8_strip_idempotent_counterexample :
    tag_strip tmplC8 = ['{', '%', '%', '}'] ∧
    tag_strip (tag_strip tmplC8) = [] ∧
    tag_strip (tag_strip tmplC8) ≠ tag_strip tmplC8 :=
  ⟨by decide, by decide, by decide⟩

/-- C8 amended: the Tag Stripper is the identity, and therefore a fixed
point under re-running, on every text that contains no directive opener and
no placeholder opener.  In general its output is not a fixed point: removing
a span can juxtapose delimiter fragments into a new removable span, as the
counterexample shows. -/
theorem C8_strip_idempotent_amended (s : List Char)
    (h1 : containsSub ['{', '%'] s = false)
    (h2 : containsSub ['{', '{'] s = false) :
    tag_strip s = s ∧ tag_strip (tag_strip s) = tag_strip s := by
  have hd := strip_directives_eq_self h1
  have hv := strip_variables_eq_self h2
  have ht : tag_strip s = s := by
    unfold tag_strip
    rw [hd, hv]
  exact ⟨ht, by rw [ht]; exact ht⟩

/-- C8 amended witness. -/
theorem C8_strip_idempotent_amended_witness :
    containsSub ['{', '%'] ("<p>plain text</p>".data) = false ∧
    containsSub ['{', '{'] ("<p>plain text</p>".data) = false ∧
    (tag_strip ("<p>plain text</p>".data) = "<p>plain text</p>".data ∧
      tag_strip (tag_strip ("<p>plain text</p>".data)) =
        tag_strip ("<p>plain text</p>".data)) :=
  ⟨by decide, by decide,
   C8_strip_idempotent_amended ("<p>plain text</p>".data) (by decide) (by decide)⟩

/-- C3 counterexample: rendering is claimed to leave no delimiter pair for
every input and context, but overlapping delimiter fragments defeat the
single-line stripper.  Rendering the template
brace-percent-percent-doublebrace-a-doublebrace-close-brace with the
engine's own context produces a document that is exactly an occurrence of
the directive delimiter pair. -/
theorem C3_no_leak_counterexample :
    render_template fetchC3w ("t".data) SITE_DATA = some ['{', '%', '%', '}'] ∧
    hasDirPair ['{', '%', '%', '}'] = true ∧
    hasVarPair ['{', '%', '%', '}'] = false :=
  ⟨by decide, by decide, by decide⟩

/-- C3 amended: the no-leakage invariant holds for working texts whose
braces occur only as disjoint single-line directive or placeholder spans
with inert bodies (no delimiter characters, no newline) separated by
brace-free literal text: the Tag Stripper removes every span and the
rendered document contains neither the directive delimiter pair nor the
placeholder delimiter pair.  Texts with multi-line or overlapping delimiter
fragments can leak, as the counterexample shows. -/
theorem C3_no_leak_amended (ps : List SPart) (hok : ∀ p ∈ ps, p.Ok) :
    hasDirPair (tag_strip (flattenS ps)) = false ∧
    hasVarPair (tag_strip (flattenS ps)) = false := by
  unfold tag_strip
  rw [strip_directives_structured ps hok]
  have hok2 : ∀ p ∈ ps.filter (fun p => !p.isDir), p.Ok ∧ p.isDir = false := by
    intro p hp
    rcases List.mem_filter.mp hp with ⟨hmem, hsel⟩
    exact ⟨hok p hmem, by simpa using hsel⟩
  rw [strip_variables_structured _ hok2]
  have hokl : ∀ p ∈ (ps.filter (fun p => !p.isDir)).filter SPart.isLit, p.Ok := by
    intro p hp
    exact hok p (List.mem_of_mem_filter (List.mem_of_mem_filter hp))
  have hlit : ∀ p ∈ (ps.filter (fun p => !p.isDir)).filter SPart.isLit,
      p.isLit = true := by
    intro p hp
    exact (List.mem_filter.mp hp).2
  have hnb := flattenS_lits_no_brace _ hokl hlit
  unfold hasDirPair hasVarPair
  rw [containsSub_false_of_head hnb, containsSub_false_of_head hnb]
  exact ⟨rfl, rfl⟩

/-- C3 amended witness: a text interleaving literal segments with one
directive span and one placeholder span strips to a document without any
delimiter pair. -/
theorem C3_no_leak_amended_witness :
    (∀ p ∈ [SPart.lit ("<p>".data), SPart.dir (" if x ".data),
      SPart.var (" name ".data), SPart.lit ("</p>".data)], p.Ok) ∧
    (hasDirPair (tag_strip (flattenS [SPart.lit ("<p>".data),
      SPart.dir (" if x ".data), SPart.var (" name ".data),
      SPart.lit ("</p>".data)])) = false ∧
     hasVarPair (tag_strip (flattenS [SPart.lit ("<p>".data),
      SPart.dir (" if x ".data), SPart.var (" name ".data),
      SPart.lit ("</p>".data)])) = false) :=
  ⟨by decide,
   C3_no_leak_amended [SPart.lit ("<p>".data), SPart.dir (" if x ".data),
     SPart.var (" name ".data), SPart.lit ("</p>".data)] (by decide)⟩

/-! ## Whole passes across a single foreign placeholder span -/

theorem pyReplace_skip_one {pat rep P₁ w P₂ : List Char}
    (hP₁ : '{' ∉ P₁) (hP₂ : '{' ∉ P₂) (hw : ∀ x ∈ w, isWordC x = true)
    (hpat : ∃ p', pat = '{' :: '{' :: p')
    (hfail : pat.isPrefixOf (spacedVar w ++ P₂) = false) :
    pyReplace pat rep (P₁ ++ (spacedVar w ++ P₂)) = P₁ ++ (spacedVar w ++ P₂) := by
  have hm : ∀ c t, c ≠ '{' → mLit pat rep (c :: t) = none := by
    intro cc tt hcc
    obtain ⟨p', hp⟩ := hpat
    rw [hp]
    exact mLit_no_match (head_prefix_false hcc _)
  unfold pyReplace
  rw [reSubP_append_of_skip _ hm _ hP₁,
    reSubP_mLit_step_spacedVar hw hfail hpat,
    reSubP_eq_self_of_skip _ hm hP₂]

theorem pyReplace_skip_two {pat rep P₁ w₁ P₂ w₂ P₃ : List Char}
    (hP₁ : '{' ∉ P₁) (hP₂ : '{' ∉ P₂) (hP₃ : '{' ∉ P₃)
    (hw₁ : ∀ x ∈ w₁, isWordC x = true) (hw₂ : ∀ x ∈ w₂, isWordC x = true)
    (hpat : ∃ p', pat = '{' :: '{' :: p')
    (hfail₁ : pat.isPrefixOf (spacedVar w₁ ++ (P₂ ++ (spacedVar w₂ ++ P₃))) = false)
    (hfail₂ : pat.isPrefixOf (spacedVar w₂ ++ P₃) = false) :
    pyReplace pat rep (P₁ ++ (spacedVar w₁ ++ (P₂ ++ (spacedVar w₂ ++ P₃)))) =
      P₁ ++ (spacedVar w₁ ++ (P₂ ++ (spacedVar w₂ ++ P₃))) := by
  have hm : ∀ c t, c ≠ '{' → mLit pat rep (c :: t) = none := by
    intro cc tt hcc
    obtain ⟨p', hp⟩ := hpat
    rw [hp]
    exact mLit_no_match (head_prefix_false hcc _)
  unfold pyReplace
  rw [reSubP_append_of_skip _ hm _ hP₁,
    reSubP_mLit_step_spacedVar hw₁ hfail₁ hpat,
    reSubP_append_of_skip _ hm _ hP₂,
    reSubP_mLit_step_spacedVar hw₂ hfail₂ hpat,
    reSubP_eq_self_of_skip _ hm hP₃]

theorem replace_defaults_skip_one {P₁ w P₂ : List Char}
    (hP₁ : '{' ∉ P₁) (hP₂ : '{' ∉ P₂) (hwne : w ≠ [])
    (hw : ∀ x ∈ w, isWordC x = true) :
    replace_defaults (P₁ ++ (spacedVar w ++ P₂)) = P₁ ++ (spacedVar w ++ P₂) := by
  unfold replace_defaults
  rw [reSubP_append_of_skip _ (fun cc tt hcc => mDefault_head hcc) _ hP₁,
    reSubP_mDefault_step_spacedVar hwne hw,
    reSubP_eq_self_of_skip _ (fun cc tt hcc => mDefault_head hcc) hP₂]

theorem strip_directives_skip_one {P₁ w P₂ : List Char}
    (hP₁ : '{' ∉ P₁) (hP₂ : '{' ∉ P₂) (hw : ∀ x ∈ w, isWordC x = true) :
    strip_directives (P₁ ++ (spacedVar w ++ P₂)) = P₁ ++ (spacedVar w ++ P₂) := by
  unfold strip_directives
  rw [reSubP_append_of_skip _ (fun cc tt hcc => mDirStrip_head hcc) _ hP₁,
    reSubP_mDirStrip_step_spacedVar hw,
    reSubP_eq_self_of_skip _ (fun cc tt hcc => mDirStrip_head hcc) hP₂]

theorem strip_variables_remove_one {P₁ w P₂ : List Char}
    (hP₁ : '{' ∉ P₁) (hP₂ : '{' ∉ P₂) (hw : ∀ x ∈ w, isWordC x = true) :
    strip_variables (P₁ ++ (spacedVar w ++ P₂)) = P₁ ++ P₂ := by
  unfold strip_variables
  rw [reSubP_append_of_skip _ (fun cc tt hcc => mVarStrip_head hcc) _ hP₁,
    reSubP_mVarStrip_remove_spacedVar hw,
    reSubP_eq_self_of_skip _ (fun cc tt hcc => mVarStrip_head hcc) hP₂]

/-- C5: the default-filter stage runs after variable substitution and
replaces every canonical default placeholder by its quoted literal,
unconditionally.  The variable pass never touches the placeholder (neither
the spaced nor the unspaced form of any context key occurs in it, because a
key contains no space), so the literal wins regardless of whether the
identifier is bound in the context; after stripping, the rendered text is
the literal between the surrounding segments. -/
theorem C5_default_literal_wins (ctx : List (List Char × List Char))
    (idn lit pre post : List Char) (hctx : ∀ kv ∈ ctx, ' ' ∉ kv.1)
    (hn : idn ≠ []) (hw : ∀ c ∈ idn, isWordC c = true)
    (hl : lit ≠ []) (hq : '"' ∉ lit) (hlb : '{' ∉ lit)
    (hpre : '{' ∉ pre) (hpost : '{' ∉ post) :
    tag_strip (replace_defaults (replace_vars ctx
      (pre ++ (dfltTxt idn lit ++ post)))) = pre ++ (lit ++ post) := by
  rw [replace_vars_skips_dflt hctx hpre hpost hw hlb,
    replace_defaults_at hpre hpost hn hw hl hq]
  have hnb : '{' ∉ pre ++ (lit ++ post) := by
    intro hmem
    rcases List.mem_append.mp hmem with h | h
    · exact hpre h
    rcases List.mem_append.mp h with h | h
    · exact hlb h
    · exact hpost h
  unfold tag_strip
  rw [strip_directives_eq_self (containsSub_false_of_head hnb),
    strip_variables_eq_self (containsSub_false_of_head hnb)]

/-- C5 witness: the placeholder for present with default Acme renders Acme
even though present is bound to Bound in the context. -/
theorem C5_default_literal_wins_witness :
    (∀ kv ∈ [("present".data, "Bound".data)], ' ' ∉ kv.1) ∧
    ("present".data ≠ ([] : List Char)) ∧
    (∀ c ∈ "present".data, isWordC c = true) ∧
    ("Acme".data ≠ ([] : List Char)) ∧
    ('"' ∉ "Acme".data) ∧ ('{' ∉ "Acme".data) ∧
    ('{' ∉ "<p>".data) ∧ ('{' ∉ "</p>".data) ∧
    tag_strip (replace_defaults (replace_vars [("present".data, "Bound".data)]
      ("<p>".data ++ (dfltTxt ("present".data) ("Acme".data) ++ "</p>".data)))) =
      "<p>".data ++ ("Acme".data ++ "</p>".data) :=
  ⟨by decide, by decide, by decide, by decide, by decide, by decide, by decide, by decide,
   C5_default_literal_wins [("present".data, "Bound".data)] ("present".data)
     ("Acme".data) ("<p>".data) ("</p>".data) (by decide) (by decide) (by decide)
     (by decide) (by decide) (by decide) (by decide) (by decide)⟩

theorem pyReplace_hit_then_skip {k v P₁ P₂ w P₃ : List Char}
    (hP₁ : '{' ∉ P₁) (hP₂ : '{' ∉ P₂) (hP₃ : '{' ∉ P₃)
    (hw : ∀ x ∈ w, isWordC x = true)
    (hfail : (spacedVar k).isPrefixOf (spacedVar w ++ P₃) = false) :
    pyReplace (spacedVar k) v (P₁ ++ (spacedVar k ++ (P₂ ++ (spacedVar w ++ P₃)))) =
      P₁ ++ (v ++ (P₂ ++ (spacedVar w ++ P₃))) := by
  unfold pyReplace
  rw [reSubP_append_of_skip _ (fun cc tt hcc => mLit_spaced_head hcc) _ hP₁,
    reSubP_append_of_match _ (mLit_self _ _ _) (by simp [spacedVar]),
    reSubP_append_of_skip _ (fun cc tt hcc => mLit_spaced_head hcc) _ hP₂,
    reSubP_mLit_step_spacedVar hw hfail ⟨_, spacedVar_cons k⟩,
    reSubP_eq_self_of_skip _ (fun cc tt hcc => mLit_spaced_head hcc) hP₃]
  rfl

/-- C10: the variable stage applies the context's replacements one key at a
time over the whole working text, in iteration order, without escaping the
inserted values: a value inserted for an earlier key is rescanned by the
later keys' passes, so a placeholder of a later key inside it is substituted
with the later key's value, while a placeholder of an unbound identifier
inside it survives the variable and default stages and is removed by the
Tag Stripper. -/
theorem C10_variable_iteration (p q a c d v₂ k₁ k₂ junk : List Char)
    (hp : '{' ∉ p) (hq : '{' ∉ q) (ha : '{' ∉ a) (hc : '{' ∉ c)
    (hd : '{' ∉ d) (hv : '{' ∉ v₂) (hk₁s : ' ' ∉ k₁)
    (hk₂ : k₂ ≠ []) (hk₂w : ∀ x ∈ k₂, isWordC x = true)
    (hj : junk ≠ []) (hjw : ∀ x ∈ junk, isWordC x = true) (h2j : k₂ ≠ junk) :
    tag_strip (replace_defaults (replace_vars
      [(k₁, a ++ (spacedVar k₂ ++ (c ++ (spacedVar junk ++ d)))), (k₂, v₂)]
      (p ++ (spacedVar k₁ ++ q)))) =
      p ++ (a ++ (v₂ ++ (c ++ (d ++ q)))) := by
  have hk₂s : ' ' ∉ k₂ := fun hm => absurd (hk₂w ' ' hm) (by decide)
  have hpa : '{' ∉ p ++ a := by
    intro hm
    rcases List.mem_append.mp hm with h | h
    · exact hp h
    · exact ha h
  have hdq : '{' ∉ d ++ q := by
    intro hm
    rcases List.mem_append.mp hm with h | h
    · exact hd h
    · exact hq h
  have hbig : '{' ∉ (p ++ a) ++ (v₂ ++ c) := by
    intro hm
    rcases List.mem_append.mp hm with h | h
    · exact hpa h
    rcases List.mem_append.mp h with h | h
    · exact hv h
    · exact hc h
  have e0 : replace_vars
      [(k₁, a ++ (spacedVar k₂ ++ (c ++ (spacedVar junk ++ d)))), (k₂, v₂)]
      (p ++ (spacedVar k₁ ++ q)) =
      pyReplace (unspacedVar k₂) v₂ (pyReplace (spacedVar k₂) v₂
        (pyReplace (unspacedVar k₁)
          (a ++ (spacedVar k₂ ++ (c ++ (spacedVar junk ++ d))))
          (pyReplace (spacedVar k₁)
            (a ++ (spacedVar k₂ ++ (c ++ (spacedVar junk ++ d))))
            (p ++ (spacedVar k₁ ++ q))))) := rfl
  rw [e0, pyReplace_spaced_hit hp hq]
  have eA : p ++ ((a ++ (spacedVar k₂ ++ (c ++ (spacedVar junk ++ d)))) ++ q) =
      (p ++ a) ++ (spacedVar k₂ ++ (c ++ (spacedVar junk ++ (d ++ q)))) := by
    simp
  rw [eA]
  have hfail₁ : (unspacedVar k₁).isPrefixOf
      (spacedVar k₂ ++ (c ++ (spacedVar junk ++ (d ++ q)))) = false := by
    have e₁ : spacedVar k₂ ++ (c ++ (spacedVar junk ++ (d ++ q))) =
        '{' :: '{' :: ' ' :: (k₂ ++ ([' ', '}', '}'] ++
          (c ++ (spacedVar junk ++ (d ++ q))))) := by
      simp [spacedVar]
    rw [e₁]
    exact unspaced_at_space_false _ hk₁s
  have hfail₂ : (unspacedVar k₁).isPrefixOf (spacedVar junk ++ (d ++ q)) = false := by
    have e₁ : spacedVar junk ++ (d ++ q) =
        '{' :: '{' :: ' ' :: (junk ++ ([' ', '}', '}'] ++ (d ++ q))) := by
      simp [spacedVar]
    rw [e₁]
    exact unspaced_at_space_false _ hk₁s
  rw [pyReplace_skip_two hpa hc hdq hk₂w hjw ⟨_, unspacedVar_cons k₁⟩ hfail₁ hfail₂]
  have hfail₃ : (spacedVar k₂).isPrefixOf (spacedVar junk ++ (d ++ q)) = false :=
    spaced_at_spaced_false _ hk₂s hjw h2j
  rw [pyReplace_hit_then_skip hpa hc hdq hjw hfail₃]
  have eC : (p ++ a) ++ (v₂ ++ (c ++ (spacedVar junk ++ (d ++ q)))) =
      ((p ++ a) ++ (v₂ ++ c)) ++ (spacedVar junk ++ (d ++ q)) := by
    simp
  rw [eC]
  have hfail₄ : (unspacedVar k₂).isPrefixOf (spacedVar junk ++ (d ++ q)) = false := by
    have e₁ : spacedVar junk ++ (d ++ q) =
        '{' :: '{' :: ' ' :: (junk ++ ([' ', '}', '}'] ++ (d ++ q))) := by
      simp [spacedVar]
    rw [e₁]
    exact unspaced_at_space_false _ hk₂s
  rw [pyReplace_skip_one hbig hdq hjw ⟨_, unspacedVar_cons k₂⟩ hfail₄]
  rw [replace_defaults_skip_one hbig hdq hj hjw]
  unfold tag_strip
  rw [strip_directives_skip_one hbig hdq hjw]
  rw [strip_variables_remove_one hbig hdq hjw]
  simp

/-- C10 witness: with the context binding k1 before k2, the value inserted
for k1 carries a k2 placeholder (substituted by the later pass) and a junk
placeholder (stripped at the end). -/
theorem C10_variable_iteration_witness :
    ('{' ∉ "A".data) ∧ ('{' ∉ "B".data) ∧ ('{' ∉ "x".data) ∧ ('{' ∉ "y".data) ∧
    ('{' ∉ "z".data) ∧ ('{' ∉ "V2".data) ∧ (' ' ∉ "k1".data) ∧
    ("k2".data ≠ ([] : List Char)) ∧ (∀ x ∈ "k2".data, isWordC x = true) ∧
    ("junk".data ≠ ([] : List Char)) ∧ (∀ x ∈ "junk".data, isWordC x = true) ∧
    ("k2".data ≠ "junk".data) ∧
    tag_strip (replace_defaults (replace_vars
      [("k1".data, "x".data ++ (spacedVar ("k2".data) ++
        ("y".data ++ (spacedVar ("junk".data) ++ "z".data)))), ("k2".data, "V2".data)]
      ("A".data ++ (spacedVar ("k1".data) ++ "B".data)))) =
      "A".data ++ ("x".data ++ ("V2".data ++ ("y".data ++ ("z".data ++ "B".data)))) :=
  ⟨by decide, by decide, by decide, by decide, by decide, by decide, by decide,
   by decide, by decide, by decide, by decide, by decide,
   C10_variable_iteration ("A".data) ("B".data) ("x".data) ("y".data) ("z".data)
     ("V2".data) ("k1".data) ("k2".data) ("junk".data)
     (by decide) (by decide) (by decide) (by decide) (by decide) (by decide)
     (by decide) (by decide) (by decide) (by decide) (by decide) (by decide)⟩
